import Mathlib

/-!
Verification development for the prism image-processing DSL and JIT.

The definitions below are a shallow embedding of the Rust sources:
  src/syntax/ast.rs, src/syntax/func.rs, src/syntax/graph.rs,
  src/syntax/pretty_print.rs (re-exported as src/pretty_print.rs),
  src/codegen/lower.rs, src/codegen/processor.rs,
  src/tracing/global_trace.rs, src/tracing/trace.rs, src/image.rs.

Machine integers: all intermediate arithmetic in generated code is LLVM
i32; we model i32 values as `Int` normalised into [-2^31, 2^31) by
`wrap32`, and pixel bytes (u8) as `Nat` values, with explicit `% 256`
where the code truncates.
-/

namespace Prism

/-- Two-complement wrap of an integer into the i32 range [-2^31, 2^31). -/
def wrap32 (n : Int) : Int := (n + 2 ^ 31) % 2 ^ 32 - 2 ^ 31

/-- LLVM i32 add (wrapping). -/
def add32 (a b : Int) : Int := wrap32 (a + b)

/-- LLVM i32 sub (wrapping). -/
def sub32 (a b : Int) : Int := wrap32 (a - b)

/-- LLVM i32 mul (wrapping). -/
def mul32 (a b : Int) : Int := wrap32 (a * b)

/-- LLVM i32 sdiv: quotient rounding toward zero, wrapped (INT_MIN / -1). -/
def sdiv32 (a b : Int) : Int := wrap32 (Int.tdiv a b)

/-- Truncation of an i32 value to an 8-bit byte (the low 8 bits). -/
def u8ofI32 (v : Int) : Nat := (v % 256).toNat

/-- Reinterpretation of an i32 value as a u32 (the value log_read receives). -/
def u32ofI32 (v : Int) : Nat := (v % 2 ^ 32).toNat

/-! ## AST (src/syntax/ast.rs) -/

/-- Var: the two free coordinate variables. -/
inductive Var where
  | X
  | Y
deriving DecidableEq

/-- VarExpr: integer coordinate expressions over X and Y (src/syntax/ast.rs). -/
inductive VarExpr where
  | Var (v : Var)
  | Const (c : Int)
  | Add (l r : VarExpr)
  | Sub (l r : VarExpr)
  | Mul (l r : VarExpr)
deriving DecidableEq

/-- VarExpr::evaluate: i32 evaluation at a concrete point. -/
def VarExpr.evaluate : VarExpr → Int → Int → Int
  | .Var v, x, y => match v with | .X => x | .Y => y
  | .Const c, _, _ => wrap32 c
  | .Add l r, x, y => add32 (l.evaluate x y) (r.evaluate x y)
  | .Sub l r, x, y => sub32 (l.evaluate x y) (r.evaluate x y)
  | .Mul l r, x, y => mul32 (l.evaluate x y) (r.evaluate x y)

/-- Access: a read of `source` at coordinates (x, y) given by VarExprs. -/
structure Access where
  source : String
  x : VarExpr
  y : VarExpr
deriving DecidableEq

/-- Comparison kinds of a Cond definition. -/
inductive Comparison where
  | EQ
  | GT
  | GTE
  | LT
  | LTE
deriving DecidableEq

/-- Definition: pixel-value expressions (src/syntax/ast.rs). The source
struct Condition (cmp, lhs, rhs, if_true, if_false) is inlined into the
Cond constructor. -/
inductive Definition where
  | Access (a : Access)
  | Const (c : Int)
  | Param (p : String)
  | Cond (cmp : Comparison) (lhs rhs if_true if_false : Definition)
  | Add (l r : Definition)
  | Mul (l r : Definition)
  | Sub (l r : Definition)
  | Div (l r : Definition)
deriving DecidableEq

/-- Definition::sources: all names read by any Access in the tree. -/
def Definition.sources : Definition → List String
  | .Access a => [a.source]
  | .Const _ => []
  | .Param _ => []
  | .Cond _ l r t f => l.sources ++ r.sources ++ t.sources ++ f.sources
  | .Add l r => l.sources ++ r.sources
  | .Mul l r => l.sources ++ r.sources
  | .Sub l r => l.sources ++ r.sources
  | .Div l r => l.sources ++ r.sources

/-- Definition::params: all parameter names in the tree. -/
def Definition.params : Definition → List String
  | .Access _ => []
  | .Const _ => []
  | .Param p => [p]
  | .Cond _ l r t f => l.params ++ r.params ++ t.params ++ f.params
  | .Add l r => l.params ++ r.params
  | .Mul l r => l.params ++ r.params
  | .Sub l r => l.params ++ r.params
  | .Div l r => l.params ++ r.params

/-- Func: a named stage (src/syntax/func.rs). -/
structure Func where
  name : String
  definition : Definition
deriving DecidableEq

/-- Func::sources. -/
def Func.sources (f : Func) : List String := f.definition.sources

/-- Func::params. -/
def Func.params (f : Func) : List String := f.definition.params

/-- FuncSchedule: outer-to-inner loop variable order (src/syntax/ast.rs).
The source field is called variables; that identifier is reserved in
Lean 4, so the field is named vars here. -/
structure FuncSchedule where
  vars : List Var
deriving DecidableEq

/-- FuncSchedule::by_row. -/
def FuncSchedule.by_row : FuncSchedule := ⟨[Var.Y, Var.X]⟩

/-- FuncSchedule::by_column. -/
def FuncSchedule.by_column : FuncSchedule := ⟨[Var.X, Var.Y]⟩

/-- Schedule: map from stage name to FuncSchedule, modelled as an
association list where an insert prepends (newest binding first, as a
HashMap insert overwrites). -/
structure Schedule where
  func_schedules : List (String × FuncSchedule)
deriving DecidableEq

/-- Schedule lookup (HashMap get). -/
def Schedule.get (s : Schedule) (name : String) : Option FuncSchedule :=
  s.func_schedules.lookup name

/-- Names that have schedule entries. -/
def Schedule.names (s : Schedule) : List String := s.func_schedules.map (·.1)

/-- Lexicographic comparison of character lists (the order Rust Vec
sort uses on Strings, byte-lexicographic, equals code-point
lexicographic on the decoded characters). -/
def lexLe : List Char → List Char → Bool
  | [], _ => true
  | _ :: _, [] => false
  | c :: cs, d :: ds =>
    if c < d then true
    else if d < c then false
    else lexLe cs ds

/-- Lexicographic string comparison. -/
def strLe (a b : String) : Bool := lexLe a.data b.data

/-! ## Graph (src/syntax/graph.rs) -/

/-- Graph: the pipeline root. Fields as in src/syntax/graph.rs. -/
structure Graph where
  name : String
  funcs : List Func
  inputs : List String
  outputs : List String
  params : List String
  schedule : Schedule
deriving DecidableEq

/-- Graph::input_then_outputs. -/
def Graph.input_then_outputs (g : Graph) : List String := g.inputs ++ g.outputs

/-- Graph::new (src/syntax/graph.rs lines 25-58). Rust HashSet collection
followed by Vec::sort is modelled as dedup + filter + insertion sort
(a stable sort; the result is the unique sorted arrangement of the set).
Panics (missing schedule entries) are modelled as Except.error. There is
no topological check: outputs is the user-supplied Func name order. -/
def Graph.new (name : String) (funcs : List Func) (schedule : Schedule) :
    Except String Graph :=
  let func_names : List String := (funcs.map (·.name)).dedup
  let reads : List String := (funcs.flatMap Func.sources).dedup
  let inputs : List String :=
    (reads.filter (fun s => ¬ s ∈ func_names)).insertionSort (fun a b => strLe a b = true)
  let outputs : List String := funcs.map (·.name)
  let params : List String :=
    ((funcs.flatMap Func.params).dedup).insertionSort (fun a b => strLe a b = true)
  let schedule_names := schedule.names
  let funcs_without_schedules := func_names.filter (fun s => ¬ s ∈ schedule_names)
  let buffers_without_schedules := inputs.filter (fun s => ¬ s ∈ schedule_names)
  if funcs_without_schedules.length > 0 ∨ buffers_without_schedules.length > 0 then
    .error ("Not all functions have schedules. Missing funcs: "
      ++ String.intercalate ", " funcs_without_schedules
      ++ ". Missing buffers: "
      ++ String.intercalate ", " buffers_without_schedules)
  else
    .ok { name := name, funcs := funcs, inputs := inputs, outputs := outputs,
          params := params, schedule := schedule }

/-! ## Images (src/image.rs) -/

/-- GrayImage: width, height, row-major byte buffer (bytes as Nat). -/
structure GrayImage where
  width : Nat
  height : Nat
  buffer : List Nat
deriving DecidableEq

/-- GrayImage::new: a zero image of the given dimensions. -/
def GrayImage.new (w h : Nat) : GrayImage := ⟨w, h, List.replicate (w * h) 0⟩

/-- Image::dimensions. -/
def GrayImage.dimensions (i : GrayImage) : Nat × Nat := (i.width, i.height)

/-! ## Trace (src/tracing/trace.rs, src/tracing/global_trace.rs) -/

/-- ActiveRegion (src/tracing/trace.rs). -/
structure ActiveRegion where
  x : Nat
  y : Nat
  width : Nat
  height : Nat
deriving DecidableEq

/-- Action: one trace event. -/
inductive Action where
  | Read (id : Nat) (x y : Nat)
  | Write (id : Nat) (x y : Nat) (v : Nat)
  | Clear (id : Nat)
  | Active (id : Nat) (region : ActiveRegion)
deriving DecidableEq

/-- Trace: append-only action log plus initial images per TraceId. -/
structure Trace where
  actions : List Action
  initial_images : List GrayImage
deriving DecidableEq

/-- Trace::new. -/
def Trace.new : Trace := ⟨[], []⟩

/-- Trace::create_trace_id: the fresh id is the current image count. -/
def Trace.create_trace_id (t : Trace) (img : GrayImage) : Nat × Trace :=
  (t.initial_images.length, { t with initial_images := t.initial_images ++ [img] })

/-- The process-wide mutable state of global_trace.rs: TRACE_IDS and
TRACE are set and cleared together, so they are modelled as one pair.
Map insert prepends (lookup finds the newest binding, as HashMap
insert-overwrite does). -/
structure TraceState where
  ids : List (String × Nat)
  trace : Trace
deriving DecidableEq

/-- log_read (src/tracing/global_trace.rs lines 30-38): a no-op when no
global trace is installed; otherwise looks up the TraceId for the name
(a HashMap index panic, modelled as error, when absent) and appends a
Read action. Coordinates arrive as the u32 reinterpretation of the i32
values the generated code passes. -/
def log_read (name : String) (x y : Int) :
    Option TraceState → Except String (Option TraceState)
  | none => .ok none
  | some ts =>
    match ts.ids.lookup name with
    | none => .error "no entry found for key"
    | some id =>
      .ok (some { ts with trace :=
        { ts.trace with actions :=
            ts.trace.actions ++ [Action.Read id (u32ofI32 x) (u32ofI32 y)] } })

/-- log_write (src/tracing/global_trace.rs lines 41-49): as log_read but
appends a Write action carrying the truncated byte. -/
def log_write (name : String) (x y : Int) (c : Nat) :
    Option TraceState → Except String (Option TraceState)
  | none => .ok none
  | some ts =>
    match ts.ids.lookup name with
    | none => .error "no entry found for key"
    | some id =>
      .ok (some { ts with trace :=
        { ts.trace with actions :=
            ts.trace.actions ++ [Action.Write id (u32ofI32 x) (u32ofI32 y) c] } })

/-! ## Lowered-code semantics (src/codegen/lower.rs)

The lowerer emits one LLVM function per graph; we embed the runtime
behaviour of the emitted code directly.  The symbol table after the
entry block maps each buffer name to its base pointer and i32-truncated
extents; this is modelled by an environment of total functions, with
the buffer contents threaded as mutable state. -/

/-- The values the generated code sees after the entry block: the i32
width/height symbols of each buffer name and the loaded parameter
values. -/
structure LowerEnv where
  widths : String → Int
  heights : String → Int
  params : String → Int

/-- Buffer memory: contents of each named buffer. -/
def Mem : Type := String → List Nat

/-- Functional update of one buffer. -/
def Mem.set (m : Mem) (name : String) (buf : List Nat) : Mem :=
  fun n => if n = name then buf else m n

/-- lower_var_expr (src/codegen/lower.rs lines 7-21): i32 arithmetic on
the current loop variables. -/
def lower_var_expr : VarExpr → Int → Int → Int
  | .Var v, x, y => match v with | .X => x | .Y => y
  | .Const c, _, _ => wrap32 c
  | .Add l r, x, y => add32 (lower_var_expr l x y) (lower_var_expr r x y)
  | .Sub l r, x, y => sub32 (lower_var_expr l x y) (lower_var_expr r x y)
  | .Mul l r, x, y => mul32 (lower_var_expr l x y) (lower_var_expr r x y)

/-- lower_access (src/codegen/lower.rs lines 26-77), executed at loop
point (x, y): evaluate the coordinate exprs as i32; if both are within
[0, width) x [0, height) of the source, load the byte at i32 offset
y*width+x, log a read, and yield the byte zero-extended to i32; else
yield the i32 constant 0. -/
def lower_access (env : LowerEnv) (mem : Mem) (a : Access) (x y : Int)
    (g : Option TraceState) : Except String (Int × Option TraceState) :=
  let cx := lower_var_expr a.x x y
  let cy := lower_var_expr a.y x y
  let width := env.widths a.source
  let height := env.heights a.source
  if (0 ≤ cx ∧ cx < width) ∧ (0 ≤ cy ∧ cy < height) then
    let offset := add32 (mul32 cy width) cx
    let val := (mem a.source).getD offset.toNat 0
    match log_read a.source cx cy g with
    | .error e => .error e
    | .ok g => .ok ((val : Int), g)
  else
    .ok (0, g)

/-- Comparison semantics of the icmp the Cond lowering selects. -/
def Comparison.holds : Comparison → Int → Int → Bool
  | .EQ, l, r => l = r
  | .GT, l, r => l > r
  | .GTE, l, r => l ≥ r
  | .LT, l, r => l < r
  | .LTE, l, r => l ≤ r

/-- lower_definition (src/codegen/lower.rs lines 80-123), executed at
loop point (x, y).  A Cond evaluates lhs, rhs, if_true and if_false
unconditionally, then branches on the comparison to pick which value is
stored in (and reloaded from) the result slot. -/
def lower_definition (env : LowerEnv) (mem : Mem) :
    Definition → Int → Int → Option TraceState →
    Except String (Int × Option TraceState)
  | .Access a, x, y, g => lower_access env mem a x y g
  | .Const c, _, _, g => .ok (wrap32 c, g)
  | .Param p, _, _, g => .ok (env.params p, g)
  | .Cond cmp l r t f, x, y, g =>
    match lower_definition env mem l x y g with
    | .error e => .error e
    | .ok (vl, g) =>
      match lower_definition env mem r x y g with
      | .error e => .error e
      | .ok (vr, g) =>
        match lower_definition env mem t x y g with
        | .error e => .error e
        | .ok (vt, g) =>
          match lower_definition env mem f x y g with
          | .error e => .error e
          | .ok (vf, g) => .ok (if cmp.holds vl vr then vt else vf, g)
  | .Add l r, x, y, g =>
    match lower_definition env mem l x y g with
    | .error e => .error e
    | .ok (vl, g) =>
      match lower_definition env mem r x y g with
      | .error e => .error e
      | .ok (vr, g) => .ok (add32 vl vr, g)
  | .Mul l r, x, y, g =>
    match lower_definition env mem l x y g with
    | .error e => .error e
    | .ok (vl, g) =>
      match lower_definition env mem r x y g with
      | .error e => .error e
      | .ok (vr, g) => .ok (mul32 vl vr, g)
  | .Sub l r, x, y, g =>
    match lower_definition env mem l x y g with
    | .error e => .error e
    | .ok (vl, g) =>
      match lower_definition env mem r x y g with
      | .error e => .error e
      | .ok (vr, g) => .ok (sub32 vl vr, g)
  | .Div l r, x, y, g =>
    match lower_definition env mem l x y g with
    | .error e => .error e
    | .ok (vl, g) =>
      match lower_definition env mem r x y g with
      | .error e => .error e
      | .ok (vr, g) => .ok (sdiv32 vl vr, g)

/-- lower_func (src/codegen/lower.rs lines 127-145), executed at loop
point (x, y): evaluate the definition, truncate to i8, log the write,
store the byte at i32 offset y*width+x of the stage buffer. -/
def lower_func (env : LowerEnv) (mem : Mem) (func : Func) (x y : Int)
    (g : Option TraceState) : Except String (Mem × Option TraceState) :=
  match lower_definition env mem func.definition x y g with
  | .error e => .error e
  | .ok (val, g) =>
    let width := env.widths func.name
    let offset := add32 (mul32 y width) x
    let trunc := u8ofI32 val
    match log_write func.name x y trunc g with
    | .error e => .error e
    | .ok g =>
      .ok (mem.set func.name ((mem func.name).set offset.toNat trunc), g)

/-- The values the loop variable of generate_loop takes: none when the
open bound is 0; 0,..,bound-1 for a positive bound; the single value 0
for a negative bound (the body runs once, then next < bound fails). -/
def loopIndices (bound : Int) : List Int :=
  if bound = 0 then [] else (List.range (max bound.toNat 1)).map Int.ofNat

/-- Running one stage body over a list of loop points. -/
def runPoints (env : LowerEnv) (func : Func) :
    List (Int × Int) → Mem → Option TraceState →
    Except String (Mem × Option TraceState)
  | [], mem, g => .ok (mem, g)
  | (x, y) :: rest, mem, g =>
    match lower_func env mem func x y g with
    | .error e => .error e
    | .ok (mem, g) => runPoints env func rest mem g

/-- The loop points of one stage nest, outer-to-inner per the schedule:
y-outer yields row-major order, x-outer column-major. -/
def nestPoints (y_outer : Bool) (x_max y_max : Int) : List (Int × Int) :=
  if y_outer then
    (loopIndices y_max).flatMap (fun y => (loopIndices x_max).map (fun x => (x, y)))
  else
    (loopIndices x_max).flatMap (fun x => (loopIndices y_max).map (fun y => (x, y)))

/-- Running the per-func loop nests of create_ir_module in order. -/
def runFuncs (env : LowerEnv) (schedule : Schedule) (x_max y_max : Int) :
    List Func → Mem → Option TraceState →
    Except String (Mem × Option TraceState)
  | [], mem, g => .ok (mem, g)
  | func :: rest, mem, g =>
    match schedule.get func.name with
    | none => .error "called Option::unwrap on a None value"
    | some sched =>
      match sched.vars with
      | [] => .error "index out of bounds"
      | v :: _ =>
        let y_outer := v = Var.Y
        match runPoints env func (nestPoints y_outer x_max y_max) mem g with
        | .error e => .error e
        | .ok (mem, g) => runFuncs env schedule x_max y_max rest mem g

/-- Runtime behaviour of the function emitted by create_ir_module
(src/codegen/lower.rs lines 228-292): loop bounds are the extents of the
final Func; each Func is lowered in graph order under its own schedule.
The assert on a non-empty Func list is modelled as an error. -/
def runModule (graph : Graph) (env : LowerEnv) (mem : Mem)
    (g : Option TraceState) : Except String (Mem × Option TraceState) :=
  match graph.funcs.getLast? with
  | none => .error "assertion failed: graph.funcs().len() > 0"
  | some final_func =>
    let x_max := env.widths final_func.name
    let y_max := env.heights final_func.name
    runFuncs env graph.schedule x_max y_max graph.funcs mem g

/-! ## Processor (src/codegen/processor.rs)

process_impl marshals flat per-arity argument lists (one
(pointer, width, height) triple per buffer position) and calls the
compiled entry point through a transmuted function pointer.  The callee
is a parameter here: the generated entry point interacts with the
caller through the argument triples and the global trace state only. -/

/-- One argument triple: buffer contents, width, height. -/
def CallArg : Type := List Nat × Nat × Nat

/-- The call made by process_impl, as the generated code observes it. -/
def Callee : Type :=
  List CallArg → Option TraceState →
    Option TraceState × Except String (List (List Nat))

/-- Processor: cached declared input and output names
(src/codegen/processor.rs lines 27-32). -/
structure Processor where
  inputs : List String
  outputs : List String

/-- Processor::new on a graph. -/
def Processor.new (graph : Graph) : Processor := ⟨graph.inputs, graph.outputs⟩

/-- The trace installation block of process_impl (lines 56-70): one
TraceId per supplied input (with the supplied image as initial image),
then one per declared output (with a zero image of the derived size). -/
def installTrace (supplied : List (String × GrayImage)) (outputs : List String)
    (w h : Nat) : TraceState :=
  let st1 := supplied.foldl (fun st p =>
    let r := st.trace.create_trace_id p.2
    { ids := (p.1, r.1) :: st.ids, trace := r.2 }) ⟨[], Trace.new⟩
  outputs.foldl (fun st name =>
    let r := st.trace.create_trace_id (GrayImage.new w h)
    { ids := (name, r.1) :: st.ids, trace := r.2 }) st1

/-- The flat argument list process_impl builds (lines 87-151): dispatch
on the declared (inputs, outputs) arity; both input positions of the
two-input cases are filled from the first supplied image (the source
binds i1 to inputs[0]); anything outside 1..2 x 1..2 panics. -/
def arityArgs (numInputs : Nat) (first : GrayImage)
    (calculated : List (String × GrayImage)) :
    Except String (List CallArg) :=
  let inArg : CallArg := (first.buffer, first.width, first.height)
  let outArg : String × GrayImage → CallArg :=
    fun r => (r.2.buffer, r.2.width, r.2.height)
  match numInputs, calculated with
  | 1, [r0] => .ok [inArg, outArg r0]
  | 1, [r0, r1] => .ok [inArg, outArg r0, outArg r1]
  | 2, [r0] => .ok [inArg, inArg, outArg r0]
  | 2, [r0, r1] => .ok [inArg, inArg, outArg r0, outArg r1]
  | _, _ => .error "Unsupported signature"

/-- Processor::process_impl (src/codegen/processor.rs lines 47-159).
The returned pair is (final global trace state, result); panics are
Except.error values and leave the global state as it stood.  Steps, in
source order: derive (w, h) from the first supplied input (an index
panic when none is supplied); install the global trace when requested;
check every declared input is supplied; allocate the output images;
build the flat argument list; call; harvest a clone of the global
trace; clear the global state when tracing was requested. -/
def process_impl (callee : Callee) (proc : Processor)
    (supplied : List (String × GrayImage)) (trace : Bool)
    (g0 : Option TraceState) :
    Option TraceState × Except String (List (String × GrayImage) × Option Trace) :=
  match supplied with
  | [] => (g0, .error "index out of bounds: the len is 0 but the index is 0")
  | first :: _ =>
    let w := first.2.width
    let h := first.2.height
    let g1 := if trace then some (installTrace supplied proc.outputs w h) else g0
    match proc.inputs.find? (fun s => ! supplied.any (fun i => i.1 == s)) with
    | some missing =>
      (g1, .error ("Required source " ++ missing
        ++ " is not calculated and is not provided as an input"))
    | none =>
      let calculated := proc.outputs.map (fun n => (n, GrayImage.new w h))
      match arityArgs proc.inputs.length first.2 calculated with
      | .error e => (g1, .error e)
      | .ok args =>
        match callee args g1 with
        | (g2, .error e) => (g2, .error e)
        | (g2, .ok outbufs) =>
          let written := List.zipWith
            (fun (p : String × GrayImage) b => (p.1, { p.2 with buffer := b }))
            calculated outbufs
          let tr := g2.map (·.trace)
          let g3 := if trace then none else g2
          (g3, .ok (written, tr))

/-- Processor::process: process_impl without tracing, trace discarded. -/
def Processor.process (callee : Callee) (proc : Processor)
    (supplied : List (String × GrayImage)) (g0 : Option TraceState) :
    Option TraceState × Except String (List (String × GrayImage)) :=
  let r := process_impl callee proc supplied false g0
  (r.1, r.2.map (·.1))

/-- Processor::process_with_tracing: process_impl with tracing, the
returned trace option unwrapped. -/
def Processor.process_with_tracing (callee : Callee) (proc : Processor)
    (supplied : List (String × GrayImage)) (g0 : Option TraceState) :
    Option TraceState × Except String (List (String × GrayImage) × Trace) :=
  let r := process_impl callee proc supplied true g0
  match r.2 with
  | .error e => (r.1, .error e)
  | .ok (m, some t) => (r.1, .ok (m, t))
  | .ok (_, none) => (r.1, .error "called Option::unwrap on a None value")

/-! ## Binding the call to the generated code

create_ir_module binds the i-th argument triple to the i-th name of
inputs ++ outputs (symbol-table insert, so for a repeated name the last
position wins), truncating extents to i32.  The entry point then runs
the loop nests of runModule; each output position whose name is bound
to it carries that buffer final contents, any other position keeps the
contents it was passed. -/

/-- The position a name is bound to: its last occurrence in the name
list (HashMap insert overwrites earlier positions). -/
def lastIdx (names : List String) (n : String) : Option Nat :=
  ((names.enum.filter (fun p => p.2 = n)).getLast?).map (·.1)

/-- The argument triple a buffer name is bound to. -/
def calleeBind (graph : Graph) (args : List CallArg) : String → CallArg :=
  fun n =>
    match lastIdx graph.input_then_outputs n with
    | some i => args.getD i ([], 0, 0)
    | none => ([], 0, 0)

/-- The symbol environment the entry block of the generated code sets
up from the argument triples: extents truncated to i32; the parameter
values are the ambient penv (process_impl passes no parameter array,
see the C2 analysis). -/
def calleeEnv (graph : Graph) (penv : String → Int) (args : List CallArg) :
    LowerEnv :=
  { widths := fun n => wrap32 ((calleeBind graph args n).2.1)
    heights := fun n => wrap32 ((calleeBind graph args n).2.2)
    params := penv }

/-- The initial buffer memory the generated code sees. -/
def calleeMem (graph : Graph) (args : List CallArg) : Mem :=
  fun n => (calleeBind graph args n).1

/-- The buffer contents at each output position after the run: the
position the output name is bound to carries the written buffer, any
other position keeps what it was passed. -/
def calleeOut (graph : Graph) (args : List CallArg) (mem2 : Mem) :
    List (List Nat) :=
  (List.range graph.outputs.length).map (fun k =>
    let j := graph.inputs.length + k
    let n := graph.input_then_outputs.getD j ""
    if lastIdx graph.input_then_outputs n = some j then mem2 n
    else (args.getD j ([], 0, 0)).1)

/-- The semantics of the generated entry point of a graph, as a Callee:
bind argument triples by position, run the module, read back the
output-position buffers. -/
def generatedCallee (graph : Graph) (penv : String → Int) : Callee :=
  fun args g =>
    match runModule graph (calleeEnv graph penv args) (calleeMem graph args) g with
    | .error e => (g, .error e)
    | .ok (mem2, g2) => (g2, .ok (calleeOut graph args mem2))

/-! ## Value/read decomposition of the lowered code

The generated code never lets the trace state influence a computed
value: values and emitted read events can be computed separately.  The
functions below compute them structurally; the lemmas relate them to
the state-threading interpreter above. -/

/-- The i32 value a Definition evaluates to at loop point (x, y). -/
def defValue (env : LowerEnv) (mem : Mem) : Definition → Int → Int → Int
  | .Access a, x, y =>
    let cx := lower_var_expr a.x x y
    let cy := lower_var_expr a.y x y
    let width := env.widths a.source
    let height := env.heights a.source
    if (0 ≤ cx ∧ cx < width) ∧ (0 ≤ cy ∧ cy < height) then
      ((mem a.source).getD (add32 (mul32 cy width) cx).toNat 0 : Int)
    else 0
  | .Const c, _, _ => wrap32 c
  | .Param p, _, _ => env.params p
  | .Cond cmp l r t f, x, y =>
    if cmp.holds (defValue env mem l x y) (defValue env mem r x y) then
      defValue env mem t x y
    else defValue env mem f x y
  | .Add l r, x, y => add32 (defValue env mem l x y) (defValue env mem r x y)
  | .Mul l r, x, y => mul32 (defValue env mem l x y) (defValue env mem r x y)
  | .Sub l r, x, y => sub32 (defValue env mem l x y) (defValue env mem r x y)
  | .Div l r, x, y => sdiv32 (defValue env mem l x y) (defValue env mem r x y)

/-- The (source, cx, cy) reads a Definition issues at loop point (x, y),
in issue order; an out-of-bounds access issues none. -/
def defReads (env : LowerEnv) : Definition → Int → Int → List (String × Int × Int)
  | .Access a, x, y =>
    let cx := lower_var_expr a.x x y
    let cy := lower_var_expr a.y x y
    if (0 ≤ cx ∧ cx < env.widths a.source) ∧ (0 ≤ cy ∧ cy < env.heights a.source) then
      [(a.source, cx, cy)]
    else []
  | .Const _, _, _ => []
  | .Param _, _, _ => []
  | .Cond _ l r t f, x, y =>
    defReads env l x y ++ defReads env r x y ++ defReads env t x y ++ defReads env f x y
  | .Add l r, x, y => defReads env l x y ++ defReads env r x y
  | .Mul l r, x, y => defReads env l x y ++ defReads env r x y
  | .Sub l r, x, y => defReads env l x y ++ defReads env r x y
  | .Div l r, x, y => defReads env l x y ++ defReads env r x y

/-- Appending one Read action for (s, cx, cy). -/
def pushRead (ts : TraceState) (s : String) (cx cy : Int) : TraceState :=
  { ts with trace := { ts.trace with actions := ts.trace.actions
      ++ [Action.Read ((ts.ids.lookup s).getD 0) (u32ofI32 cx) (u32ofI32 cy)] } }

/-- Appending the Read actions of a read list. -/
def pushReads (ts : TraceState) (l : List (String × Int × Int)) : TraceState :=
  l.foldl (fun ts p => pushRead ts p.1 p.2.1 p.2.2) ts

/-- Appending one Write action. -/
def pushWrite (ts : TraceState) (s : String) (x y : Int) (v : Nat) : TraceState :=
  { ts with trace := { ts.trace with actions := ts.trace.actions
      ++ [Action.Write ((ts.ids.lookup s).getD 0) (u32ofI32 x) (u32ofI32 y) v] } }

/-- The memory after the single store of lower_func at loop point (x, y). -/
def funcStep (env : LowerEnv) (mem : Mem) (func : Func) (x y : Int) : Mem :=
  mem.set func.name ((mem func.name).set
    (add32 (mul32 y (env.widths func.name)) x).toNat
    (u8ofI32 (defValue env mem func.definition x y)))

/-- The names whose TraceIds a list of stages needs at run time: each
stage writes under its own name and reads from its sources. -/
def graphNeeds (funcs : List Func) : List String :=
  funcs.flatMap (fun f => f.name :: f.definition.sources)

/-- The id map of an optional trace state. -/
def idsOf : Option TraceState → Option (List (String × Nat)) :=
  Option.map TraceState.ids

/-- The id map (when installed) covers all the given names. -/
def idsOk (need : List String) : Option TraceState → Prop
  | none => True
  | some ts => ∀ s ∈ need, (ts.ids.lookup s).isSome

/-! ## Pretty printing (src/pretty_print.rs, impls in src/syntax/ast.rs)

Rust i32::to_string is embedded as decimal digit emission (natChars /
intToString); combine_with_op and pretty_print_with_parens mirror
src/pretty_print.rs with the trait dispatch flattened into explicit
(string, is_leaf) arguments. -/

/-- Big-endian decimal digits of n, with fuel (n itself suffices). -/
def natCharsAux : Nat → Nat → List Char
  | 0, _ => []
  | fuel + 1, n =>
    if n = 0 then [] else natCharsAux fuel (n / 10) ++ [Nat.digitChar (n % 10)]

/-- Decimal digit characters of a natural number. -/
def natChars (n : Nat) : List Char := if n = 0 then ['0'] else natCharsAux n n

/-- Decimal digit characters of an integer, with leading minus sign. -/
def intChars (c : Int) : List Char :=
  if c < 0 then '-' :: natChars c.natAbs else natChars c.toNat

/-- Embedding of i32::to_string. -/
def intToString (c : Int) : String := String.mk (intChars c)

/-- The Display impl for Var. -/
def Var.toStr : Var → String
  | .X => "x"
  | .Y => "y"

/-- pretty_print_with_parens (src/pretty_print.rs lines 13-16), on an
already printed child. -/
def ppWithParens (pp : String) (leaf : Bool) : String :=
  if leaf then pp else "(" ++ pp ++ ")"

/-- combine_with_op (src/pretty_print.rs lines 7-11). -/
def combine_with_op (op : String) (lp : String) (ll : Bool)
    (rp : String) (rl : Bool) : String :=
  ppWithParens lp ll ++ " " ++ op ++ " " ++ ppWithParens rp rl

/-- VarExpr is_leaf. -/
def VarExpr.is_leaf : VarExpr → Bool
  | .Var _ => true
  | .Const _ => true
  | _ => false

/-- VarExpr pretty_print (src/syntax/ast.rs lines 112-129). -/
def VarExpr.pretty_print : VarExpr → String
  | .Var v => v.toStr
  | .Const c => intToString c
  | .Add l r => combine_with_op "+" l.pretty_print l.is_leaf r.pretty_print r.is_leaf
  | .Sub l r => combine_with_op "-" l.pretty_print l.is_leaf r.pretty_print r.is_leaf
  | .Mul l r => combine_with_op "*" l.pretty_print l.is_leaf r.pretty_print r.is_leaf

/-- Comparison pretty_print. -/
def Comparison.pretty_print : Comparison → String
  | .EQ => "=="
  | .GT => ">"
  | .GTE => ">="
  | .LT => "<"
  | .LTE => "<="

/-- Definition is_leaf: only Access and Const are leaves. -/
def Definition.is_leaf : Definition → Bool
  | .Access _ => true
  | .Const _ => true
  | _ => false

/-- Definition pretty_print (src/syntax/ast.rs lines 290-317). -/
def Definition.pretty_print : Definition → String
  | .Access a =>
    a.source ++ "(" ++ a.x.pretty_print ++ ", " ++ a.y.pretty_print ++ ")"
  | .Const c => intToString c
  | .Param p => p
  | .Cond cmp l r t f =>
    "if " ++ ppWithParens l.pretty_print l.is_leaf
      ++ " " ++ cmp.pretty_print
      ++ " " ++ ppWithParens r.pretty_print r.is_leaf
      ++ " \x7b" ++ ppWithParens t.pretty_print t.is_leaf
      ++ "\x7d else \x7b" ++ ppWithParens f.pretty_print f.is_leaf ++ "\x7d"
  | .Add l r => combine_with_op "+" l.pretty_print l.is_leaf r.pretty_print r.is_leaf
  | .Sub l r => combine_with_op "-" l.pretty_print l.is_leaf r.pretty_print r.is_leaf
  | .Mul l r => combine_with_op "*" l.pretty_print l.is_leaf r.pretty_print r.is_leaf
  | .Div l r => combine_with_op "/" l.pretty_print l.is_leaf r.pretty_print r.is_leaf

/-! ## Character-level form of the VarExpr printer, and a parser

ppChars is the character list of VarExpr.pretty_print; a fuel-indexed
recursive-descent parser inverts it, which yields injectivity. -/

/-- Character-level VarExpr print. -/
def VarExpr.ppChars : VarExpr → List Char
  | .Var .X => ['x']
  | .Var .Y => ['y']
  | .Const c => intChars c
  | .Add l r =>
    (if l.is_leaf then l.ppChars else '(' :: (l.ppChars ++ [')']))
      ++ ' ' :: '+' :: ' ' ::
    (if r.is_leaf then r.ppChars else '(' :: (r.ppChars ++ [')']))
  | .Sub l r =>
    (if l.is_leaf then l.ppChars else '(' :: (l.ppChars ++ [')']))
      ++ ' ' :: '-' :: ' ' ::
    (if r.is_leaf then r.ppChars else '(' :: (r.ppChars ++ [')']))
  | .Mul l r =>
    (if l.is_leaf then l.ppChars else '(' :: (l.ppChars ++ [')']))
      ++ ' ' :: '*' :: ' ' ::
    (if r.is_leaf then r.ppChars else '(' :: (r.ppChars ++ [')']))

/-- A child as printed in operand position. -/
def wrapChars (e : VarExpr) : List Char :=
  if e.is_leaf then e.ppChars else '(' :: (e.ppChars ++ [')'])

/-- Decimal value of a digit character run. -/
def digitsToNat (l : List Char) : Nat :=
  l.foldl (fun a c => a * 10 + (c.toNat - 48)) 0

/-- One operand: a leaf token or a parenthesised expression, parsed by
the given continuation. -/
def parseItem (pe : List Char → Option (VarExpr × List Char)) :
    List Char → Option (VarExpr × List Char)
  | [] => none
  | c :: rest =>
    if c = '(' then
      match pe rest with
      | some (e, ')' :: r2) => some (e, r2)
      | _ => none
    else if c = 'x' then some (.Var .X, rest)
    else if c = 'y' then some (.Var .Y, rest)
    else if c = '-' then
      match rest.span Char.isDigit with
      | (ds, r) => if ds = [] then none else some (.Const (-(digitsToNat ds)), r)
    else if c.isDigit then
      match (c :: rest).span Char.isDigit with
      | (ds, r) => some (.Const (digitsToNat ds), r)
    else none

/-- Fuel-indexed parser for printed VarExprs. -/
def parseE : Nat → List Char → Option (VarExpr × List Char)
  | 0, _ => none
  | fuel + 1, s =>
    match parseItem (parseE fuel) s with
    | none => none
    | some (l, r) =>
      match r with
      | ' ' :: '+' :: ' ' :: r2 =>
        match parseItem (parseE fuel) r2 with
        | some (rr, r3) => some (.Add l rr, r3)
        | none => none
      | ' ' :: '-' :: ' ' :: r2 =>
        match parseItem (parseE fuel) r2 with
        | some (rr, r3) => some (.Sub l rr, r3)
        | none => none
      | ' ' :: '*' :: ' ' :: r2 =>
        match parseItem (parseE fuel) r2 with
        | some (rr, r3) => some (.Mul l rr, r3)
        | none => none
      | _ => some (l, r)

/-- Fuel sufficient to parse a printed VarExpr. -/
def pfuel : VarExpr → Nat
  | .Var _ => 1
  | .Const _ => 1
  | .Add l r => max (pfuel l) (pfuel r) + 1
  | .Sub l r => max (pfuel l) (pfuel r) + 1
  | .Mul l r => max (pfuel l) (pfuel r) + 1

/-- Continuations a printed expression may be followed by: end of input
or a closing parenthesis. -/
def goodRest (r : List Char) : Prop :=
  r = [] ∨ ∃ r2, r = ')' :: r2

/-- Continuations that cannot extend a digit run or a leaf. -/
def notDigitHead : List Char → Prop
  | [] => True
  | c :: _ => c.isDigit = false

/-! ## Concrete fixtures -/

deriving instance DecidableEq for Except

/-- Example stage: out(x, y) = in(x, y) + 3. -/
def exFunc : Func := ⟨"out", .Add (.Access ⟨"in", .Var .X, .Var .Y⟩) (.Const 3)⟩

/-- Schedule covering the example stage and its input. -/
def exSchedule : Schedule :=
  ⟨[("out", FuncSchedule.by_row), ("in", FuncSchedule.by_row)]⟩

/-- The graph Graph::new builds for the example stage. -/
def exGraph : Graph := ⟨"example", [exFunc], ["in"], ["out"], [], exSchedule⟩

/-- A 2x2 test image. -/
def exImg : GrayImage := ⟨2, 2, [1, 2, 3, 4]⟩

/-- A second, different 2x2 test image. -/
def exImg2 : GrayImage := ⟨2, 2, [9, 9, 9, 9]⟩

/-- Stage f reads the external input. -/
def fStage : Func := ⟨"f", .Access ⟨"in", .Var .X, .Var .Y⟩⟩

/-- Stage g reads stage f. -/
def gStage : Func := ⟨"g", .Access ⟨"f", .Var .X, .Var .Y⟩⟩

/-- Schedule covering f, g and the input. -/
def ooSchedule : Schedule :=
  ⟨[("f", FuncSchedule.by_row), ("g", FuncSchedule.by_row),
    ("in", FuncSchedule.by_row)]⟩

/-- A stage reading three external inputs. -/
def tripleFunc : Func :=
  ⟨"sum", .Add (.Add (.Access ⟨"a", .Var .X, .Var .Y⟩)
    (.Access ⟨"b", .Var .X, .Var .Y⟩)) (.Access ⟨"c", .Var .X, .Var .Y⟩)⟩

/-- Schedule for the three-input pipeline. -/
def tripleSchedule : Schedule :=
  ⟨[("sum", FuncSchedule.by_row), ("a", FuncSchedule.by_row),
    ("b", FuncSchedule.by_row), ("c", FuncSchedule.by_row)]⟩

/-- The graph of the three-input pipeline. -/
def tripleGraph : Graph :=
  ⟨"triple", [tripleFunc], ["a", "b", "c"], ["sum"], [], tripleSchedule⟩

/-- A stage reading two external inputs. -/
def twoFunc : Func :=
  ⟨"mix", .Add (.Access ⟨"a", .Var .X, .Var .Y⟩) (.Access ⟨"b", .Var .X, .Var .Y⟩)⟩

/-- Schedule for the two-input pipeline. -/
def twoSchedule : Schedule :=
  ⟨[("mix", FuncSchedule.by_row), ("a", FuncSchedule.by_row),
    ("b", FuncSchedule.by_row)]⟩

/-- The graph of the two-input pipeline. -/
def twoGraph : Graph := ⟨"two", [twoFunc], ["a", "b"], ["mix"], [], twoSchedule⟩

/-- Environment fixture for the access/cond lowering witnesses. -/
def envW : LowerEnv := ⟨fun _ => 2, fun _ => 2, fun _ => 0⟩

/-- Memory fixture: one 2x2 buffer under every name. -/
def memW : Mem := fun _ => [10, 20, 30, 40]

/-- Trace-state fixture with one registered buffer. -/
def tsW : TraceState := ⟨[("src", 0)], Trace.new⟩

/-- Output map of the traced example run. -/
def exOutMap : List (String × GrayImage) := [("out", ⟨2, 2, [4, 5, 6, 7]⟩)]

/-- Trace of the traced example run: a Read of the input and a Write of
the output at each of the four pixels, row-major. -/
def exTrace : Trace :=
  ⟨[.Read 0 0 0, .Write 1 0 0 4, .Read 0 1 0, .Write 1 1 0 5,
    .Read 0 0 1, .Write 1 0 1 6, .Read 0 1 1, .Write 1 1 1 7],
   [exImg, ⟨2, 2, [0, 0, 0, 0]⟩]⟩

/-- Parameter types of the function construct_func emits for every
graph (src/codegen/lower.rs lines 180-189): four pointers, to the
buffer, width, height and param arrays. -/
def construct_func_param_types : List String := ["i8**", "i64*", "i64*", "i32*"]

/-- Parameter types of the function-pointer type process_impl
transmutes the entry point to for declared arity (i, o)
(src/codegen/processor.rs lines 87-151): one (pointer, width, height)
triple per buffer position, flattened. -/
def transmuted_param_types (numInputs numOutputs : Nat) : List String :=
  (List.replicate (numInputs + numOutputs) ["i8*", "i64", "i64"]).flatten

/-! ## Theorems -/

theorem pushRead_ids (ts : TraceState) (s : String) (cx cy : Int) :
    (pushRead ts s cx cy).ids = ts.ids := rfl

theorem pushReads_ids (l : List (String × Int × Int)) (ts : TraceState) :
    (pushReads ts l).ids = ts.ids := by
  induction l generalizing ts with
  | nil => rfl
  | cons p rest ih => simpa [pushReads] using ih (pushRead ts p.1 p.2.1 p.2.2)

theorem pushReads_append (ts : TraceState) (a b : List (String × Int × Int)) :
    pushReads ts (a ++ b) = pushReads (pushReads ts a) b :=
  List.foldl_append ..

theorem log_read_some (ts : TraceState) (s : String) (cx cy : Int)
    (h : (ts.ids.lookup s).isSome) :
    log_read s cx cy (some ts) = .ok (some (pushRead ts s cx cy)) := by
  cases hl : ts.ids.lookup s with
  | none => rw [hl] at h; simp at h
  | some id => simp [log_read, hl, pushRead]

theorem log_write_some (ts : TraceState) (s : String) (x y : Int) (v : Nat)
    (h : (ts.ids.lookup s).isSome) :
    log_write s x y v (some ts) = .ok (some (pushWrite ts s x y v)) := by
  cases hl : ts.ids.lookup s with
  | none => rw [hl] at h; simp at h
  | some id => simp [log_write, hl, pushWrite]

/-- Without an installed trace, lowered definitions compute defValue and
touch no global state. -/
theorem lower_definition_none (env : LowerEnv) (mem : Mem) :
    ∀ (d : Definition) (x y : Int),
      lower_definition env mem d x y none = .ok (defValue env mem d x y, none) := by
  intro d
  induction d with
  | Access a =>
    intro x y
    simp only [lower_definition, lower_access, defValue, log_read]
    split <;> rfl
  | Const c => intro x y; rfl
  | Param p => intro x y; rfl
  | Cond cmp l r t f ihl ihr iht ihf =>
    intro x y
    simp only [lower_definition, ihl, ihr, iht, ihf, defValue]
  | Add l r ihl ihr =>
    intro x y
    simp only [lower_definition, ihl, ihr, defValue]
  | Mul l r ihl ihr =>
    intro x y
    simp only [lower_definition, ihl, ihr, defValue]
  | Sub l r ihl ihr =>
    intro x y
    simp only [lower_definition, ihl, ihr, defValue]
  | Div l r ihl ihr =>
    intro x y
    simp only [lower_definition, ihl, ihr, defValue]

/-- With an installed trace whose id map covers every read the
definition issues, lowered definitions compute defValue and append
exactly the defReads events, in order. -/
theorem lower_definition_some (env : LowerEnv) (mem : Mem) :
    ∀ (d : Definition) (x y : Int) (ts : TraceState),
      (∀ p ∈ defReads env d x y, (ts.ids.lookup p.1).isSome) →
      lower_definition env mem d x y (some ts) =
        .ok (defValue env mem d x y, some (pushReads ts (defReads env d x y))) := by
  intro d
  induction d with
  | Access a =>
    intro x y ts hcov
    simp only [lower_definition, lower_access, defValue, defReads]
    split
    case isTrue hb =>
      rw [log_read_some]
      · rfl
      · exact hcov (a.source, lower_var_expr a.x x y, lower_var_expr a.y x y)
          (by simp [defReads, hb])
    case isFalse hb => rfl
  | Const c => intro x y ts hcov; rfl
  | Param p => intro x y ts hcov; rfl
  | Cond cmp l r t f ihl ihr iht ihf =>
    intro x y ts hcov
    simp only [defReads] at hcov
    have hl := ihl x y ts (fun p hp => hcov p (by simp [hp]))
    have hr := ihr x y (pushReads ts (defReads env l x y))
      (fun p hp => by rw [pushReads_ids]; exact hcov p (by simp [hp]))
    have ht := iht x y (pushReads (pushReads ts (defReads env l x y)) (defReads env r x y))
      (fun p hp => by rw [pushReads_ids, pushReads_ids]; exact hcov p (by simp [hp]))
    have hf := ihf x y (pushReads (pushReads (pushReads ts (defReads env l x y))
        (defReads env r x y)) (defReads env t x y))
      (fun p hp => by rw [pushReads_ids, pushReads_ids, pushReads_ids]
                      exact hcov p (by simp [hp]))
    simp only [lower_definition, hl, hr, ht, hf, defValue, defReads,
      pushReads_append]
  | Add l r ihl ihr =>
    intro x y ts hcov
    simp only [defReads] at hcov
    have hl := ihl x y ts (fun p hp => hcov p (by simp [hp]))
    have hr := ihr x y (pushReads ts (defReads env l x y))
      (fun p hp => by rw [pushReads_ids]; exact hcov p (by simp [hp]))
    simp only [lower_definition, hl, hr, defValue, defReads, pushReads_append]
  | Mul l r ihl ihr =>
    intro x y ts hcov
    simp only [defReads] at hcov
    have hl := ihl x y ts (fun p hp => hcov p (by simp [hp]))
    have hr := ihr x y (pushReads ts (defReads env l x y))
      (fun p hp => by rw [pushReads_ids]; exact hcov p (by simp [hp]))
    simp only [lower_definition, hl, hr, defValue, defReads, pushReads_append]
  | Sub l r ihl ihr =>
    intro x y ts hcov
    simp only [defReads] at hcov
    have hl := ihl x y ts (fun p hp => hcov p (by simp [hp]))
    have hr := ihr x y (pushReads ts (defReads env l x y))
      (fun p hp => by rw [pushReads_ids]; exact hcov p (by simp [hp]))
    simp only [lower_definition, hl, hr, defValue, defReads, pushReads_append]
  | Div l r ihl ihr =>
    intro x y ts hcov
    simp only [defReads] at hcov
    have hl := ihl x y ts (fun p hp => hcov p (by simp [hp]))
    have hr := ihr x y (pushReads ts (defReads env l x y))
      (fun p hp => by rw [pushReads_ids]; exact hcov p (by simp [hp]))
    simp only [lower_definition, hl, hr, defValue, defReads, pushReads_append]

/-- Every read a Definition issues names one of its syntactic sources. -/
theorem defReads_sources (env : LowerEnv) :
    ∀ (d : Definition) (x y : Int) (p : String × Int × Int),
      p ∈ defReads env d x y → p.1 ∈ d.sources := by
  intro d
  induction d with
  | Access a =>
    intro x y p hp
    simp only [defReads] at hp
    split at hp <;> simp_all [Definition.sources]
  | Const c => intro x y p hp; simp [defReads] at hp
  | Param q => intro x y p hp; simp [defReads] at hp
  | Cond cmp l r t f ihl ihr iht ihf =>
    intro x y p hp
    simp only [defReads, List.mem_append] at hp
    simp only [Definition.sources, List.mem_append]
    rcases hp with ((h | h) | h) | h
    · exact Or.inl (Or.inl (Or.inl (ihl x y p h)))
    · exact Or.inl (Or.inl (Or.inr (ihr x y p h)))
    · exact Or.inl (Or.inr (iht x y p h))
    · exact Or.inr (ihf x y p h)
  | Add l r ihl ihr =>
    intro x y p hp
    simp only [defReads, List.mem_append] at hp
    simp only [Definition.sources, List.mem_append]
    exact hp.imp (ihl x y p) (ihr x y p)
  | Mul l r ihl ihr =>
    intro x y p hp
    simp only [defReads, List.mem_append] at hp
    simp only [Definition.sources, List.mem_append]
    exact hp.imp (ihl x y p) (ihr x y p)
  | Sub l r ihl ihr =>
    intro x y p hp
    simp only [defReads, List.mem_append] at hp
    simp only [Definition.sources, List.mem_append]
    exact hp.imp (ihl x y p) (ihr x y p)
  | Div l r ihl ihr =>
    intro x y p hp
    simp only [defReads, List.mem_append] at hp
    simp only [Definition.sources, List.mem_append]
    exact hp.imp (ihl x y p) (ihr x y p)

theorem pushWrite_ids (ts : TraceState) (s : String) (x y : Int) (v : Nat) :
    (pushWrite ts s x y v).ids = ts.ids := rfl

theorem lower_func_none (env : LowerEnv) (mem : Mem) (func : Func) (x y : Int) :
    lower_func env mem func x y none = .ok (funcStep env mem func x y, none) := by
  simp only [lower_func, lower_definition_none, log_write, funcStep]

theorem lower_func_some (env : LowerEnv) (mem : Mem) (func : Func) (x y : Int)
    (ts : TraceState)
    (hcov : ∀ s ∈ func.definition.sources, (ts.ids.lookup s).isSome)
    (hname : (ts.ids.lookup func.name).isSome) :
    lower_func env mem func x y (some ts) =
      .ok (funcStep env mem func x y,
        some (pushWrite (pushReads ts (defReads env func.definition x y))
          func.name x y (u8ofI32 (defValue env mem func.definition x y)))) := by
  have hld := lower_definition_some env mem func.definition x y ts
    (fun p hp => hcov p.1 (defReads_sources env func.definition x y p hp))
  have hlw := log_write_some (pushReads ts (defReads env func.definition x y))
    func.name x y (u8ofI32 (defValue env mem func.definition x y))
    (by rw [pushReads_ids]; exact hname)
  simp only [lower_func, hld, hlw, funcStep]

theorem runPoints_none_shape (env : LowerEnv) (func : Func) :
    ∀ (pts : List (Int × Int)) (mem : Mem),
      ∃ m, runPoints env func pts mem none = .ok (m, none) := by
  intro pts
  induction pts with
  | nil => intro mem; exact ⟨mem, rfl⟩
  | cons p rest ih =>
    intro mem
    obtain ⟨m, hm⟩ := ih (funcStep env mem func p.1 p.2)
    exact ⟨m, by simp only [runPoints, lower_func_none, hm]⟩

theorem runPoints_master (env : LowerEnv) (func : Func) :
    ∀ (pts : List (Int × Int)) (mem : Mem) (g : Option TraceState),
      idsOk (func.name :: func.definition.sources) g →
      ∃ g2, runPoints env func pts mem g =
          (runPoints env func pts mem none).map (fun p => (p.1, g2)) ∧
        idsOf g2 = idsOf g := by
  intro pts
  induction pts with
  | nil =>
    intro mem g _
    exact ⟨g, rfl, rfl⟩
  | cons p rest ih =>
    intro mem g hok
    match g with
    | none =>
      obtain ⟨m, hm⟩ := runPoints_none_shape env func (p :: rest) mem
      exact ⟨none, by rw [hm]; rfl, rfl⟩
    | some ts =>
      have hcov : ∀ s ∈ func.definition.sources, (ts.ids.lookup s).isSome :=
        fun s hs => hok s (by simp [hs])
      have hname : (ts.ids.lookup func.name).isSome := hok func.name (by simp)
      set ts1 := pushWrite (pushReads ts (defReads env func.definition p.1 p.2))
        func.name p.1 p.2 (u8ofI32 (defValue env mem func.definition p.1 p.2)) with hts1
      have hids1 : ts1.ids = ts.ids := by
        rw [hts1, pushWrite_ids, pushReads_ids]
      have hok1 : idsOk (func.name :: func.definition.sources) (some ts1) := by
        intro s hs
        rw [hids1]
        exact hok s hs
      obtain ⟨g2, hrun, hg2⟩ := ih (funcStep env mem func p.1 p.2) (some ts1) hok1
      refine ⟨g2, ?_, ?_⟩
      · simp only [runPoints, lower_func_some env mem func p.1 p.2 ts hcov hname,
          lower_func_none, hrun]
      · rw [hg2]
        simp [idsOf, hids1]

theorem runFuncs_none_state (env : LowerEnv) (sch : Schedule) (xm ym : Int) :
    ∀ (fs : List Func) (mem : Mem) (m : Mem) (g2 : Option TraceState),
      runFuncs env sch xm ym fs mem none = .ok (m, g2) → g2 = none := by
  intro fs
  induction fs with
  | nil =>
    intro mem m g2 h
    simp only [runFuncs, Except.ok.injEq, Prod.mk.injEq] at h
    exact h.2.symm
  | cons f rest ih =>
    intro mem m g2 h
    simp only [runFuncs] at h
    match hs : sch.get f.name with
    | none => rw [hs] at h; exact absurd h (by simp)
    | some fsched =>
      rw [hs] at h
      dsimp only at h
      match hv : fsched.vars with
      | [] => rw [hv] at h; exact absurd h (by simp)
      | v :: vs =>
        rw [hv] at h
        dsimp only at h
        obtain ⟨m1, hm1⟩ := runPoints_none_shape env f
          (nestPoints (v = Var.Y) xm ym) mem
        rw [hm1] at h
        exact ih m1 m g2 h

theorem runFuncs_master (env : LowerEnv) (sch : Schedule) (xm ym : Int) :
    ∀ (fs : List Func) (mem : Mem) (g : Option TraceState),
      idsOk (graphNeeds fs) g →
      ∃ g2, runFuncs env sch xm ym fs mem g =
          (runFuncs env sch xm ym fs mem none).map (fun p => (p.1, g2)) ∧
        idsOf g2 = idsOf g := by
  intro fs
  induction fs with
  | nil =>
    intro mem g _
    exact ⟨g, rfl, rfl⟩
  | cons f rest ih =>
    intro mem g hok
    cases hs : sch.get f.name with
    | none =>
      refine ⟨g, ?_, rfl⟩
      simp only [runFuncs, hs]
      rfl
    | some fsched =>
      cases hv : fsched.vars with
      | nil =>
        refine ⟨g, ?_, rfl⟩
        simp only [runFuncs, hs, hv]
        rfl
      | cons v vs =>
        have hokf : idsOk (f.name :: f.definition.sources) g := by
          match g with
          | none => trivial
          | some ts =>
            intro s hsm
            exact hok s (by simp only [graphNeeds, List.flatMap_cons,
              List.mem_append]; exact Or.inl hsm)
        obtain ⟨g1, hpts, hg1⟩ := runPoints_master env f
          (nestPoints (v = Var.Y) xm ym) mem g hokf
        obtain ⟨m1, hm1⟩ := runPoints_none_shape env f
          (nestPoints (v = Var.Y) xm ym) mem
        have hpts2 : runPoints env f (nestPoints (v = Var.Y) xm ym) mem g =
            .ok (m1, g1) := by
          rw [hpts, hm1]; rfl
        have hokr : idsOk (graphNeeds rest) g1 := by
          match g, g1, hg1 with
          | none, none, _ => trivial
          | some ts, some ts1, hg1 =>
            intro s hsm
            have hidseq : ts1.ids = ts.ids := by
              simpa [idsOf] using hg1
            rw [hidseq]
            exact hok s (by simp only [graphNeeds, List.flatMap_cons,
              List.mem_append]; exact Or.inr hsm)
        obtain ⟨g2, hrest, hg2⟩ := ih m1 g1 hokr
        refine ⟨g2, ?_, by rw [hg2, hg1]⟩
        simp only [runFuncs, hs, hv, hpts2, hm1]
        exact hrest

theorem runModule_master (graph : Graph) (env : LowerEnv) (mem : Mem)
    (g : Option TraceState) (hok : idsOk (graphNeeds graph.funcs) g) :
    ∃ g2, runModule graph env mem g =
        (runModule graph env mem none).map (fun p => (p.1, g2)) ∧
      idsOf g2 = idsOf g := by
  simp only [runModule]
  match graph.funcs.getLast? with
  | none => exact ⟨g, rfl, rfl⟩
  | some final_func =>
    exact runFuncs_master env graph.schedule
      (env.widths final_func.name) (env.heights final_func.name)
      graph.funcs mem g hok

/-- The generated entry point: with a covering id map its result buffers
and error behaviour are those of the untraced run; the id map survives. -/
theorem generatedCallee_master (graph : Graph) (penv : String → Int)
    (args : List CallArg) (g : Option TraceState)
    (hok : idsOk (graphNeeds graph.funcs) g) :
    ∃ g2, generatedCallee graph penv args g =
        (g2, (generatedCallee graph penv args none).2) ∧
      idsOf g2 = idsOf g := by
  obtain ⟨g2, hrun, hg2⟩ := runModule_master graph (calleeEnv graph penv args)
    (calleeMem graph args) g hok
  cases hnone : runModule graph (calleeEnv graph penv args)
      (calleeMem graph args) none with
  | error e =>
    rw [hnone] at hrun
    simp only [Except.map] at hrun
    refine ⟨g, ?_, rfl⟩
    simp only [generatedCallee, hnone, hrun]
  | ok r =>
    rw [hnone] at hrun
    simp only [Except.map] at hrun
    refine ⟨g2, ?_, hg2⟩
    simp only [generatedCallee, hnone, hrun]

/-! ## Coverage of the installed id map -/

theorem lookup_isSome_of_mem_fst {β : Type} (l : List (String × β)) (a : String)
    (h : a ∈ l.map Prod.fst) : (l.lookup a).isSome := by
  induction l with
  | nil => simp at h
  | cons p rest ih =>
    simp only [List.map_cons, List.mem_cons] at h
    by_cases he : a = p.1
    · simp [List.lookup, he]
    · have : a ∈ rest.map Prod.fst := h.resolve_left he
      simp [List.lookup, show (a == p.1) = false by simpa using he, ih this]

theorem ids_after_foldl {α : Type} (f : TraceState → α → TraceState)
    (keyOf : α → String)
    (hf : ∀ st a, ((f st a).ids).map Prod.fst = keyOf a :: st.ids.map Prod.fst) :
    ∀ (l : List α) (st : TraceState),
      ((l.foldl f st).ids).map Prod.fst
        = (l.map keyOf).reverse ++ st.ids.map Prod.fst := by
  intro l
  induction l with
  | nil => intro st; simp
  | cons a rest ih =>
    intro st
    simp only [List.foldl_cons, ih, hf, List.map_cons, List.reverse_cons]
    simp

theorem installTrace_keys (supplied : List (String × GrayImage))
    (outputs : List String) (w h : Nat) :
    ((installTrace supplied outputs w h).ids).map Prod.fst
      = outputs.reverse ++ (supplied.map Prod.fst).reverse := by
  simp only [installTrace]
  rw [ids_after_foldl _ (fun n => n) (fun st a => by simp),
      ids_after_foldl _ Prod.fst (fun st a => by simp)]
  simp

theorem installTrace_covers (supplied : List (String × GrayImage))
    (outputs : List String) (w h : Nat) (s : String)
    (hs : s ∈ supplied.map Prod.fst ∨ s ∈ outputs) :
    (((installTrace supplied outputs w h).ids).lookup s).isSome := by
  apply lookup_isSome_of_mem_fst
  rw [installTrace_keys]
  rcases hs with hs | hs
  · simp [hs]
  · simp [hs]

/-! ## Structure of constructed graphs -/

theorem graphNew_ok {n : String} {fs : List Func} {sch : Schedule} {g : Graph}
    (h : Graph.new n fs sch = .ok g) :
    g.name = n ∧ g.funcs = fs ∧
    g.inputs = (((fs.flatMap Func.sources).dedup).filter
        (fun s => ¬ s ∈ (fs.map (·.name)).dedup)).insertionSort (fun a b => strLe a b = true) ∧
    g.outputs = fs.map (·.name) ∧
    g.params = ((fs.flatMap Func.params).dedup).insertionSort (fun a b => strLe a b = true) ∧
    g.schedule = sch := by
  simp only [Graph.new] at h
  split at h
  · exact absurd h (by simp)
  · injection h with h
    subst h
    exact ⟨rfl, rfl, rfl, rfl, rfl, rfl⟩

/-- Every source a stage of a constructed graph reads is a declared
input or an output of the graph. -/
theorem graphNew_sources_covered {n : String} {fs : List Func} {sch : Schedule}
    {g : Graph} (h : Graph.new n fs sch = .ok g) :
    ∀ f ∈ g.funcs, ∀ s ∈ f.sources, s ∈ g.inputs ∨ s ∈ g.outputs := by
  obtain ⟨-, hfuncs, hinputs, houtputs, -, -⟩ := graphNew_ok h
  intro f hf s hs
  have hflat : s ∈ fs.flatMap Func.sources :=
    List.mem_flatMap.mpr ⟨f, hfuncs ▸ hf, hs⟩
  by_cases hname : s ∈ (fs.map (·.name)).dedup
  · right
    rw [houtputs]
    simpa using List.mem_dedup.mp hname
  · left
    rw [hinputs]
    rw [List.Perm.mem_iff (List.perm_insertionSort _ _)]
    exact List.mem_filter.mpr ⟨List.mem_dedup.mpr hflat, by simpa using hname⟩

/-- Every stage name of a constructed graph is among its outputs. -/
theorem graphNew_names_covered {n : String} {fs : List Func} {sch : Schedule}
    {g : Graph} (h : Graph.new n fs sch = .ok g) :
    ∀ f ∈ g.funcs, f.name ∈ g.outputs := by
  obtain ⟨-, hfuncs, -, houtputs, -, -⟩ := graphNew_ok h
  intro f hf
  rw [houtputs]
  exact List.mem_map.mpr ⟨f, hfuncs ▸ hf, rfl⟩

theorem runModule_none_state (graph : Graph) (env : LowerEnv) (mem : Mem)
    {m : Mem} {g2 : Option TraceState}
    (h : runModule graph env mem none = .ok (m, g2)) : g2 = none := by
  simp only [runModule] at h
  match hl : graph.funcs.getLast? with
  | none => rw [hl] at h; exact absurd h (by simp)
  | some final_func =>
    rw [hl] at h
    exact runFuncs_none_state env graph.schedule _ _ graph.funcs mem m g2 h

/-- Validation success: every declared input is among the supplied names. -/
theorem validation_covers (declared : List String)
    (supplied : List (String × GrayImage))
    (h : declared.find? (fun s => ! supplied.any (fun i => i.1 == s)) = none) :
    ∀ s ∈ declared, s ∈ supplied.map Prod.fst := by
  intro s hs
  have := List.find?_eq_none.mp h s hs
  simp only [Bool.not_eq_true', Bool.not_eq_false] at this
  obtain ⟨i, hi, hieq⟩ := List.any_eq_true.mp this
  exact List.mem_map.mpr ⟨i, hi, by simpa using hieq⟩

/-- The id map installed for a validated call covers everything the
generated code of the graph looks up. -/
theorem installTrace_graph_covers {n : String} {fs : List Func} {sch : Schedule}
    {g : Graph} (h : Graph.new n fs sch = .ok g)
    (supplied : List (String × GrayImage)) (w hgt : Nat)
    (hval : g.inputs.find? (fun s => ! supplied.any (fun i => i.1 == s)) = none) :
    idsOk (graphNeeds g.funcs)
      (some (installTrace supplied g.outputs w hgt)) := by
  intro s hs
  apply installTrace_covers
  simp only [graphNeeds, List.mem_flatMap] at hs
  obtain ⟨f, hf, hsf⟩ := hs
  rcases List.mem_cons.mp hsf with rfl | hsrc
  · exact Or.inr (graphNew_names_covered h f hf)
  · rcases graphNew_sources_covered h f hf s hsrc with hin | hout
    · exact Or.inl (validation_covers g.inputs supplied hval s hin)
    · exact Or.inr hout

theorem generatedCallee_none_state (graph : Graph) (penv : String → Int)
    (args : List CallArg) {gB : Option TraceState} {res : List (List Nat)}
    (h : generatedCallee graph penv args none = (gB, .ok res)) : gB = none := by
  simp only [generatedCallee] at h
  match hr : runModule graph (calleeEnv graph penv args) (calleeMem graph args) none with
  | .error e =>
    rw [hr] at h
    dsimp only at h
    injection h with h1 h2
    exact absurd h2 (by simp)
  | .ok (m2, g2r) =>
    rw [hr] at h
    dsimp only at h
    injection h with h1 h2
    have hn := runModule_none_state graph _ _ hr
    rw [← h1, hn]

/-- Core tracing-transparency fact about process_impl on a constructed
graph: the untraced and traced calls fail with the same error or return
the same output images, the traced one together with an installed
trace. -/
theorem process_impl_trace_core {n : String} {fs : List Func} {sch : Schedule}
    {g : Graph} (penv : String → Int)
    (h : Graph.new n fs sch = .ok g) (supplied : List (String × GrayImage)) :
    (∃ e, (process_impl (generatedCallee g penv) (Processor.new g) supplied false none).2
            = .error e ∧
          (process_impl (generatedCallee g penv) (Processor.new g) supplied true none).2
            = .error e) ∨
    (∃ m t, (process_impl (generatedCallee g penv) (Processor.new g) supplied false none).2
            = .ok (m, none) ∧
          (process_impl (generatedCallee g penv) (Processor.new g) supplied true none).2
            = .ok (m, some t)) := by
  match supplied with
  | [] => exact Or.inl ⟨_, rfl, rfl⟩
  | first :: rest =>
    simp only [process_impl, Bool.false_eq_true, if_true, if_false]
    cases hval : (Processor.new g).inputs.find?
        (fun s => ! (first :: rest).any (fun i => i.1 == s)) with
    | some missing =>
      exact Or.inl ⟨_, rfl, rfl⟩
    | none =>
      cases harity : arityArgs (Processor.new g).inputs.length first.2
          ((Processor.new g).outputs.map
            (fun nm => (nm, GrayImage.new first.2.width first.2.height))) with
      | error e =>
        exact Or.inl ⟨e, rfl, rfl⟩
      | ok args =>
        dsimp only
        have hok : idsOk (graphNeeds g.funcs)
            (some (installTrace (first :: rest) (Processor.new g).outputs
              first.2.width first.2.height)) :=
          installTrace_graph_covers h (first :: rest)
            first.2.width first.2.height hval
        obtain ⟨g2, hcall, hg2⟩ := generatedCallee_master g penv args
          (some (installTrace (first :: rest) (Processor.new g).outputs
            first.2.width first.2.height)) hok
        match hbase : generatedCallee g penv args none with
        | (gB, .error e) =>
          rw [hbase] at hcall
          dsimp only at hcall
          rw [hcall]
          exact Or.inl ⟨e, rfl, rfl⟩
        | (gB, .ok outbufs) =>
          rw [hbase] at hcall
          dsimp only at hcall
          have hgB : gB = none := generatedCallee_none_state g penv args hbase
          match g2, hg2 with
          | none, hg2 => exact absurd hg2 (by simp [idsOf])
          | some ts2, _ =>
            rw [hcall, hgB]
            exact Or.inr ⟨_, ts2.trace, rfl, rfl⟩

/-- C4 composition: process and process_with_tracing agree on outputs. -/
theorem process_tracing_eq {n : String} {fs : List Func} {sch : Schedule}
    {g : Graph} (penv : String → Int)
    (h : Graph.new n fs sch = .ok g) (supplied : List (String × GrayImage)) :
    (Processor.process (generatedCallee g penv) (Processor.new g) supplied none).2 =
    ((Processor.process_with_tracing (generatedCallee g penv) (Processor.new g)
        supplied none).2).map (·.1) := by
  rcases process_impl_trace_core penv h supplied with ⟨e, hF, hT⟩ | ⟨m, t, hF, hT⟩ <;>
    simp only [Processor.process, Processor.process_with_tracing, hF, hT] <;> rfl

/-- An untraced process_impl call reads the second supplied pair only
for its name: swapping its image changes nothing. -/
theorem process_impl_untraced_second_image (cal : Callee) (proc : Processor)
    (a : String × GrayImage) (nb : String) (b b' : GrayImage)
    (rest : List (String × GrayImage)) (g0 : Option TraceState) :
    process_impl cal proc (a :: (nb, b) :: rest) false g0 =
    process_impl cal proc (a :: (nb, b') :: rest) false g0 := rfl

/-- C9: on a constructed graph with two declared inputs, the outputs of
process and of process_with_tracing do not depend on the second
supplied input image: the call marshals the first supplied input
buffer into both input positions, so two runs differing only in the
second input image produce identical output maps. -/
theorem process_ignores_second_input {n : String} {fs : List Func}
    {sch : Schedule} {g : Graph} (penv : String → Int)
    (h : Graph.new n fs sch = .ok g) (hlen : g.inputs.length = 2)
    (a : String × GrayImage) (nb : String) (b b' : GrayImage)
    (rest : List (String × GrayImage)) :
    (Processor.process (generatedCallee g penv) (Processor.new g)
        (a :: (nb, b) :: rest) none).2 =
      (Processor.process (generatedCallee g penv) (Processor.new g)
        (a :: (nb, b') :: rest) none).2 ∧
    ((Processor.process_with_tracing (generatedCallee g penv) (Processor.new g)
        (a :: (nb, b) :: rest) none).2).map (·.1) =
      ((Processor.process_with_tracing (generatedCallee g penv) (Processor.new g)
        (a :: (nb, b') :: rest) none).2).map (·.1) := by
  have huntraced := process_impl_untraced_second_image
    (generatedCallee g penv) (Processor.new g) a nb b b' rest none
  constructor
  · simp only [Processor.process, huntraced]
  · have h1 := process_tracing_eq penv h (a :: (nb, b) :: rest)
    have h2 := process_tracing_eq penv h (a :: (nb, b') :: rest)
    rw [← h1, ← h2]
    simp only [Processor.process, huntraced]

theorem digitChar_toNat {k : Nat} (hk : k < 10) : (Nat.digitChar k).toNat = 48 + k := by
  interval_cases k <;> rfl

theorem digitChar_isDigit {k : Nat} (hk : k < 10) : (Nat.digitChar k).isDigit = true := by
  interval_cases k <;> rfl

theorem natCharsAux_digits : ∀ (fuel n : Nat), ∀ c ∈ natCharsAux fuel n, c.isDigit = true := by
  intro fuel
  induction fuel with
  | zero => intro n c hc; simp [natCharsAux] at hc
  | succ f ih =>
    intro n c hc
    simp only [natCharsAux] at hc
    split at hc
    · simp at hc
    · rcases List.mem_append.mp hc with h | h
      · exact ih _ c h
      · simp only [List.mem_singleton] at h
        subst h
        exact digitChar_isDigit (Nat.mod_lt _ (by norm_num))

theorem natChars_digits (n : Nat) : ∀ c ∈ natChars n, c.isDigit = true := by
  unfold natChars
  split
  · intro c hc
    simp only [List.mem_singleton] at hc
    subst hc
    rfl
  · exact natCharsAux_digits n n

theorem natCharsAux_ne_nil {fuel n : Nat} (h1 : n ≠ 0) (h2 : n ≤ fuel) :
    natCharsAux fuel n ≠ [] := by
  match fuel with
  | 0 => omega
  | f + 1 => simp [natCharsAux, h1]

theorem natChars_ne_nil (n : Nat) : natChars n ≠ [] := by
  unfold natChars
  split
  · simp
  · exact natCharsAux_ne_nil (by assumption) le_rfl

theorem natCharsAux_val : ∀ (fuel n : Nat), n ≤ fuel → ∀ acc : Nat,
    List.foldl (fun a c => a * 10 + (c.toNat - 48)) acc (natCharsAux fuel n)
      = acc * 10 ^ (natCharsAux fuel n).length + n := by
  intro fuel
  induction fuel with
  | zero =>
    intro n hn acc
    interval_cases n
    simp [natCharsAux]
  | succ f ih =>
    intro n hn acc
    by_cases h0 : n = 0
    · subst h0; simp [natCharsAux]
    · have hlt : n / 10 < n := Nat.div_lt_self (Nat.pos_of_ne_zero h0) (by norm_num)
      have hdiv : n / 10 ≤ f := by omega
      simp only [natCharsAux, if_neg h0, List.foldl_append, List.length_append,
        List.length_singleton]
      rw [ih (n / 10) hdiv acc]
      simp only [List.foldl_cons, List.foldl_nil]
      rw [digitChar_toNat (Nat.mod_lt _ (by norm_num))]
      rw [pow_succ]
      have hmod := Nat.div_add_mod n 10
      set P := (10 : Nat) ^ (natCharsAux f (n / 10)).length
      have h48 : 48 + n % 10 - 48 = n % 10 := by omega
      rw [h48, ← mul_assoc]
      omega

theorem digitsToNat_natChars (n : Nat) : digitsToNat (natChars n) = n := by
  unfold digitsToNat natChars
  split
  · simp_all
  · rw [natCharsAux_val n n le_rfl 0]
    simp

theorem takeWhile_digits (ds r : List Char) (hds : ∀ c ∈ ds, c.isDigit = true)
    (hr : notDigitHead r) : (ds ++ r).takeWhile Char.isDigit = ds := by
  induction ds with
  | nil =>
    match r with
    | [] => rfl
    | c :: cs =>
      simp only [List.nil_append, List.takeWhile_cons]
      rw [show c.isDigit = false from hr]
      simp
  | cons d ds ih =>
    simp only [List.cons_append, List.takeWhile_cons]
    rw [hds d (by simp)]
    simp only [if_true]
    rw [ih (fun c hc => hds c (by simp [hc]))]

theorem dropWhile_digits (ds r : List Char) (hds : ∀ c ∈ ds, c.isDigit = true)
    (hr : notDigitHead r) : (ds ++ r).dropWhile Char.isDigit = r := by
  induction ds with
  | nil =>
    match r with
    | [] => rfl
    | c :: cs =>
      simp only [List.nil_append, List.dropWhile_cons]
      rw [show c.isDigit = false from hr]
      simp
  | cons d ds ih =>
    simp only [List.cons_append, List.dropWhile_cons]
    rw [hds d (by simp)]
    simp only [if_true]
    exact ih (fun c hc => hds c (by simp [hc]))

theorem span_digits (ds r : List Char) (hds : ∀ c ∈ ds, c.isDigit = true)
    (hr : notDigitHead r) : (ds ++ r).span Char.isDigit = (ds, r) := by
  rw [List.span_eq_take_drop, takeWhile_digits ds r hds hr,
    dropWhile_digits ds r hds hr]

theorem goodRest_notDigit : ∀ {r : List Char}, goodRest r → notDigitHead r := by
  intro r h
  rcases h with rfl | ⟨r2, rfl⟩
  · trivial
  · rfl

theorem isDigit_ne {d : Char} (hd : d.isDigit = true) :
    d ≠ '(' ∧ d ≠ 'x' ∧ d ≠ 'y' ∧ d ≠ '-' := by
  refine ⟨?_, ?_, ?_, ?_⟩ <;>
    · intro h
      subst h
      exact absurd hd (by decide)

theorem parseItem_spec (pe : List Char → Option (VarExpr × List Char)) (e : VarExpr)
    (rest : List Char)
    (hpe : e.is_leaf = false → pe (e.ppChars ++ ')' :: rest) = some (e, ')' :: rest))
    (hrest : notDigitHead rest) :
    parseItem pe (wrapChars e ++ rest) = some (e, rest) := by
  match e with
  | .Var .X =>
    simp [wrapChars, VarExpr.is_leaf, VarExpr.ppChars, parseItem]
  | .Var .Y =>
    simp [wrapChars, VarExpr.is_leaf, VarExpr.ppChars, parseItem]
  | .Const c =>
    by_cases hc : c < 0
    · have hw : wrapChars (.Const c) ++ rest = '-' :: (natChars c.natAbs ++ rest) := by
        simp [wrapChars, VarExpr.is_leaf, VarExpr.ppChars, intChars, hc]
      rw [hw]
      have hspan := span_digits (natChars c.natAbs) rest (natChars_digits _) hrest
      have habs : -((digitsToNat (natChars c.natAbs) : Int)) = c := by
        rw [digitsToNat_natChars]
        omega
      simp only [parseItem, hspan]
      rw [if_neg (natChars_ne_nil _)]
      simp [habs]
    · obtain ⟨d, ds, hds⟩ := List.exists_cons_of_ne_nil (natChars_ne_nil c.toNat)
      have hdig : d.isDigit = true := natChars_digits _ d (by rw [hds]; simp)
      obtain ⟨hne1, hne2, hne3, hne4⟩ := isDigit_ne hdig
      have hw : wrapChars (.Const c) ++ rest = d :: (ds ++ rest) := by
        simp [wrapChars, VarExpr.is_leaf, VarExpr.ppChars, intChars,
          if_neg hc, hds]
      rw [hw]
      have hspan : ((d :: ds) ++ rest).span Char.isDigit = (d :: ds, rest) :=
        span_digits (d :: ds) rest (by rw [← hds]; exact natChars_digits _) hrest
      have hval : (digitsToNat (d :: ds) : Int) = c := by
        rw [← hds, digitsToNat_natChars]
        omega
      simp only [parseItem, if_neg hne1, if_neg hne2, if_neg hne3, if_neg hne4,
        hdig, if_true, List.cons_append] at hspan ⊢
      rw [hspan, hval]
  | .Add l r =>
    have hw : wrapChars (.Add l r) ++ rest
        = '(' :: ((VarExpr.Add l r).ppChars ++ ')' :: rest) := by
      simp [wrapChars, VarExpr.is_leaf]
    rw [hw]
    simp [parseItem, hpe rfl]
  | .Sub l r =>
    have hw : wrapChars (.Sub l r) ++ rest
        = '(' :: ((VarExpr.Sub l r).ppChars ++ ')' :: rest) := by
      simp [wrapChars, VarExpr.is_leaf]
    rw [hw]
    simp [parseItem, hpe rfl]
  | .Mul l r =>
    have hw : wrapChars (.Mul l r) ++ rest
        = '(' :: ((VarExpr.Mul l r).ppChars ++ ')' :: rest) := by
      simp [wrapChars, VarExpr.is_leaf]
    rw [hw]
    simp [parseItem, hpe rfl]

theorem pfuel_pos (e : VarExpr) : 1 ≤ pfuel e := by
  cases e <;> simp [pfuel]

theorem wrapChars_of_leaf {e : VarExpr} (h : e.is_leaf = true) :
    wrapChars e = e.ppChars := by
  simp [wrapChars, h]

theorem parseE_spec : ∀ (e : VarExpr) (fuel : Nat) (rest : List Char),
    pfuel e ≤ fuel → goodRest rest →
    parseE fuel (e.ppChars ++ rest) = some (e, rest) := by
  intro e
  induction e with
  | Var v =>
    intro fuel rest hfuel hrest
    obtain ⟨f, rfl⟩ : ∃ f, fuel = f + 1 :=
      ⟨fuel - 1, by have := pfuel_pos (.Var v); omega⟩
    have hitem := parseItem_spec (parseE f) (.Var v) rest
      (fun h => absurd h (by simp [VarExpr.is_leaf]))
      (goodRest_notDigit hrest)
    rw [wrapChars_of_leaf (by simp [VarExpr.is_leaf])] at hitem
    simp only [parseE, hitem]
    rcases hrest with rfl | ⟨r2, rfl⟩ <;> rfl
  | Const c =>
    intro fuel rest hfuel hrest
    obtain ⟨f, rfl⟩ : ∃ f, fuel = f + 1 :=
      ⟨fuel - 1, by have := pfuel_pos (.Const c); omega⟩
    have hitem := parseItem_spec (parseE f) (.Const c) rest
      (fun h => absurd h (by simp [VarExpr.is_leaf]))
      (goodRest_notDigit hrest)
    rw [wrapChars_of_leaf (by simp [VarExpr.is_leaf])] at hitem
    simp only [parseE, hitem]
    rcases hrest with rfl | ⟨r2, rfl⟩ <;> rfl
  | Add l r ihl ihr =>
    intro fuel rest hfuel hrest
    obtain ⟨f, rfl⟩ : ∃ f, fuel = f + 1 :=
      ⟨fuel - 1, by have := pfuel_pos (.Add l r); omega⟩
    have hfl : pfuel l ≤ f := by simp [pfuel] at hfuel; omega
    have hfr : pfuel r ≤ f := by simp [pfuel] at hfuel; omega
    have hsplit : (VarExpr.Add l r).ppChars ++ rest
        = wrapChars l ++ (' ' :: '+' :: ' ' :: (wrapChars r ++ rest)) := by
      simp [VarExpr.ppChars, wrapChars, List.append_assoc]
    have hiteml := parseItem_spec (parseE f) l
      (' ' :: '+' :: ' ' :: (wrapChars r ++ rest))
      (fun _ => ihl f (')' :: (' ' :: '+' :: ' ' :: (wrapChars r ++ rest)))
        hfl (Or.inr ⟨_, rfl⟩))
      (by rfl)
    have hitemr := parseItem_spec (parseE f) r rest
      (fun _ => ihr f (')' :: rest) hfr (Or.inr ⟨_, rfl⟩))
      (goodRest_notDigit hrest)
    rw [hsplit]
    simp only [parseE, hiteml, hitemr]
  | Sub l r ihl ihr =>
    intro fuel rest hfuel hrest
    obtain ⟨f, rfl⟩ : ∃ f, fuel = f + 1 :=
      ⟨fuel - 1, by have := pfuel_pos (.Sub l r); omega⟩
    have hfl : pfuel l ≤ f := by simp [pfuel] at hfuel; omega
    have hfr : pfuel r ≤ f := by simp [pfuel] at hfuel; omega
    have hsplit : (VarExpr.Sub l r).ppChars ++ rest
        = wrapChars l ++ (' ' :: '-' :: ' ' :: (wrapChars r ++ rest)) := by
      simp [VarExpr.ppChars, wrapChars, List.append_assoc]
    have hiteml := parseItem_spec (parseE f) l
      (' ' :: '-' :: ' ' :: (wrapChars r ++ rest))
      (fun _ => ihl f (')' :: (' ' :: '-' :: ' ' :: (wrapChars r ++ rest)))
        hfl (Or.inr ⟨_, rfl⟩))
      (by rfl)
    have hitemr := parseItem_spec (parseE f) r rest
      (fun _ => ihr f (')' :: rest) hfr (Or.inr ⟨_, rfl⟩))
      (goodRest_notDigit hrest)
    rw [hsplit]
    simp only [parseE, hiteml, hitemr]
  | Mul l r ihl ihr =>
    intro fuel rest hfuel hrest
    obtain ⟨f, rfl⟩ : ∃ f, fuel = f + 1 :=
      ⟨fuel - 1, by have := pfuel_pos (.Mul l r); omega⟩
    have hfl : pfuel l ≤ f := by simp [pfuel] at hfuel; omega
    have hfr : pfuel r ≤ f := by simp [pfuel] at hfuel; omega
    have hsplit : (VarExpr.Mul l r).ppChars ++ rest
        = wrapChars l ++ (' ' :: '*' :: ' ' :: (wrapChars r ++ rest)) := by
      simp [VarExpr.ppChars, wrapChars, List.append_assoc]
    have hiteml := parseItem_spec (parseE f) l
      (' ' :: '*' :: ' ' :: (wrapChars r ++ rest))
      (fun _ => ihl f (')' :: (' ' :: '*' :: ' ' :: (wrapChars r ++ rest)))
        hfl (Or.inr ⟨_, rfl⟩))
      (by rfl)
    have hitemr := parseItem_spec (parseE f) r rest
      (fun _ => ihr f (')' :: rest) hfr (Or.inr ⟨_, rfl⟩))
      (goodRest_notDigit hrest)
    rw [hsplit]
    simp only [parseE, hiteml, hitemr]

theorem ppChars_inj {e1 e2 : VarExpr} (h : e1.ppChars = e2.ppChars) : e1 = e2 := by
  have h1 := parseE_spec e1 (max (pfuel e1) (pfuel e2)) []
    (le_max_left _ _) (Or.inl rfl)
  have h2 := parseE_spec e2 (max (pfuel e1) (pfuel e2)) []
    (le_max_right _ _) (Or.inl rfl)
  rw [List.append_nil] at h1 h2
  rw [h, h2] at h1
  injection h1 with h1
  injection h1 with h1
  exact h1.symm

theorem pretty_print_data (e : VarExpr) : (e.pretty_print).data = e.ppChars := by
  induction e with
  | Var v => cases v <;> rfl
  | Const c => rfl
  | Add l r ihl ihr =>
    cases hll : l.is_leaf <;> cases hrl : r.is_leaf <;>
      simp [VarExpr.pretty_print, combine_with_op, ppWithParens, VarExpr.ppChars,
        String.data_append, hll, hrl, ihl, ihr]
  | Sub l r ihl ihr =>
    cases hll : l.is_leaf <;> cases hrl : r.is_leaf <;>
      simp [VarExpr.pretty_print, combine_with_op, ppWithParens, VarExpr.ppChars,
        String.data_append, hll, hrl, ihl, ihr]
  | Mul l r ihl ihr =>
    cases hll : l.is_leaf <;> cases hrl : r.is_leaf <;>
      simp [VarExpr.pretty_print, combine_with_op, ppWithParens, VarExpr.ppChars,
        String.data_append, hll, hrl, ihl, ihr]

/-- C8 (amended): pretty_print is injective on VarExprs: two VarExprs
with the same printed string are equal.  On Definitions injectivity
fails (structurally distinct trees such as Const 3 and Param "3" print
identically; see the counterexample). -/
theorem pretty_print_inj {e1 e2 : VarExpr}
    (h : e1.pretty_print = e2.pretty_print) : e1 = e2 :=
  ppChars_inj (by rw [← pretty_print_data, ← pretty_print_data, h])

theorem wrap32_eq {v : Int} (h1 : -(2 ^ 31) ≤ v) (h2 : v < 2 ^ 31) :
    wrap32 v = v := by
  unfold wrap32
  omega

/-- C1: an Access(source, xe, ye) lowered and executed at loop point
(x, y): with cx, cy the i32 evaluations of xe, ye, if 0 <= cx < width
and 0 <= cy < height of the source then the value is the u8 pixel at
offset cy*width+cx of the source buffer zero-extended to i32 and a
log_read is issued for (cx, cy); otherwise the value is the i32
constant 0 and the trace is untouched (no pixel is loaded: the result
no longer depends on the buffer).  The extents hypothesis rules out i32
overflow of the offset arithmetic, which the generated code performs
with wrapping i32 operations. -/
theorem lower_access_spec (env : LowerEnv) (mem : Mem) (a : Access) (x y : Int)
    (ts : TraceState) (id : Nat)
    (hid : ts.ids.lookup a.source = some id)
    (hbound : env.widths a.source * env.heights a.source ≤ 2 ^ 31) :
    lower_access env mem a x y (some ts) =
      if (0 ≤ lower_var_expr a.x x y ∧ lower_var_expr a.x x y < env.widths a.source)
        ∧ (0 ≤ lower_var_expr a.y x y ∧ lower_var_expr a.y x y < env.heights a.source)
      then .ok (((mem a.source).getD
          (lower_var_expr a.y x y * env.widths a.source
            + lower_var_expr a.x x y).toNat 0 : Int),
        some (pushRead ts a.source (lower_var_expr a.x x y) (lower_var_expr a.y x y)))
      else .ok (0, some ts) := by
  simp only [lower_access]
  split
  case isTrue hb =>
    obtain ⟨⟨hx0, hxw⟩, hy0, hyh⟩ := hb
    set cx := lower_var_expr a.x x y
    set cy := lower_var_expr a.y x y
    set W := env.widths a.source
    set H := env.heights a.source
    have hW1 : 1 ≤ W := by omega
    have hm1 : cy * W ≤ (H - 1) * W :=
      mul_le_mul_of_nonneg_right (by omega) (by omega)
    have hm2 : (H - 1) * W = H * W - W := by ring
    have hWH : H * W ≤ 2 ^ 31 := by rw [mul_comm]; exact hbound
    have hcyW : 0 ≤ cy * W := mul_nonneg hy0 (by omega)
    have hmul : mul32 cy W = cy * W :=
      wrap32_eq (by omega) (by omega)
    have hadd : add32 (cy * W) cx = cy * W + cx :=
      wrap32_eq (by omega) (by omega)
    rw [log_read_some ts a.source cx cy (by rw [hid]; rfl)]
    rw [show add32 (mul32 cy W) cx = cy * W + cx by rw [hmul, hadd]]
  case isFalse hb => rfl

/-- C10: a Cond definition lowers to code that evaluates lhs, rhs,
if_true and if_false unconditionally, in that order, before the
comparison branch; the resulting value is the if_true value when the
comparison holds and the if_false value otherwise, and every (in
bounds) Access in either branch appends its log_read event regardless
of which branch is selected. -/
theorem lower_cond_spec (env : LowerEnv) (mem : Mem) (cmp : Comparison)
    (l r t f : Definition) (x y : Int) (ts : TraceState)
    (hcov : ∀ p ∈ defReads env (.Cond cmp l r t f) x y, (ts.ids.lookup p.1).isSome) :
    lower_definition env mem (.Cond cmp l r t f) x y (some ts) =
      .ok ((if cmp.holds (defValue env mem l x y) (defValue env mem r x y)
            then defValue env mem t x y else defValue env mem f x y),
        some (pushReads ts (defReads env l x y ++ defReads env r x y
          ++ defReads env t x y ++ defReads env f x y))) := by
  rw [lower_definition_some env mem (.Cond cmp l r t f) x y ts hcov]
  simp only [defValue, defReads]

theorem lexLe_iff : ∀ (a b : List Char),
    lexLe a b = true ↔ ¬ List.Lex (· < ·) b a := by
  intro a
  induction a with
  | nil =>
    intro b
    match b with
    | [] =>
      simp only [lexLe, true_iff]
      intro h
      nomatch h
    | d :: ds =>
      simp only [lexLe, true_iff]
      intro h
      nomatch h
  | cons c cs ih =>
    intro b
    match b with
    | [] =>
      simp only [lexLe, Bool.false_eq_true, false_iff, not_not]
      exact List.Lex.nil
    | d :: ds =>
      rcases lt_trichotomy c d with hcd | hcd | hcd
      · simp only [lexLe, if_pos hcd, true_iff]
        intro h
        cases h with
        | cons h3 => exact absurd hcd (lt_irrefl c)
        | rel hdc => exact absurd hdc (lt_asymm hcd)
      · subst hcd
        simp only [lexLe, lt_self_iff_false, if_false]
        rw [ih ds]
        constructor
        · intro h hcon
          cases hcon with
          | cons h3 => exact h h3
          | rel hdc => exact absurd hdc (lt_irrefl c)
        · intro h hcon
          exact h (List.Lex.cons hcon)
      · simp only [lexLe, if_neg (lt_asymm hcd), if_pos hcd,
          Bool.false_eq_true, false_iff, not_not]
        exact List.Lex.rel hcd

theorem strLe_iff (a b : String) : (strLe a b = true) ↔ a ≤ b := by
  rw [String.le_iff_toList_le, ← not_lt]
  exact lexLe_iff a.data b.data

/-- C7: for every successfully constructed Graph, the derived inputs
and params lists are sorted lexicographically and duplicate-free, and
inputs is exactly the set of names read by some Func minus the set of
Func names. -/
theorem graphNew_invariants {n : String} {fs : List Func} {sch : Schedule}
    {g : Graph} (h : Graph.new n fs sch = .ok g) :
    g.inputs.Sorted (· ≤ ·) ∧ g.inputs.Nodup ∧
    g.params.Sorted (· ≤ ·) ∧ g.params.Nodup ∧
    (∀ s, s ∈ g.inputs ↔
      ((∃ f ∈ fs, s ∈ f.sources) ∧ ¬ (∃ f ∈ fs, f.name = s))) := by
  obtain ⟨-, -, hin, -, hpar, -⟩ := graphNew_ok h
  haveI htot : IsTotal String (fun a b => strLe a b = true) :=
    ⟨fun a b => by
      rcases le_total a b with hl | hl
      · exact Or.inl ((strLe_iff a b).mpr hl)
      · exact Or.inr ((strLe_iff b a).mpr hl)⟩
  haveI htr : IsTrans String (fun a b => strLe a b = true) :=
    ⟨fun a b c hab hbc => (strLe_iff a c).mpr
      (le_trans ((strLe_iff a b).mp hab) ((strLe_iff b c).mp hbc))⟩
  refine ⟨?_, ?_, ?_, ?_, ?_⟩
  · rw [hin]
    exact (List.sorted_insertionSort _ _).imp (fun hab => (strLe_iff _ _).mp hab)
  · rw [hin]
    exact ((List.perm_insertionSort _ _).nodup_iff).mpr
      (List.Nodup.filter _ (List.nodup_dedup _))
  · rw [hpar]
    exact (List.sorted_insertionSort _ _).imp (fun hab => (strLe_iff _ _).mp hab)
  · rw [hpar]
    exact ((List.perm_insertionSort _ _).nodup_iff).mpr (List.nodup_dedup _)
  · intro s
    rw [hin, List.Perm.mem_iff (List.perm_insertionSort _ _), List.mem_filter]
    simp only [List.mem_dedup, List.mem_flatMap, decide_eq_true_eq,
      List.mem_map, Func.sources]

/-- C5 (amended): when at least one input is supplied and some declared
input name is missing, the call fails with a missing-input error naming
the offending input; but this validation is not the first step: it runs
after the dimensions are derived from the first supplied input and
after the global trace state is installed (when tracing was requested),
though before any output buffer is created.  (With no supplied inputs
the call fails with an index panic instead; see the counterexample.) -/
theorem process_impl_missing_input (cal : Callee) (proc : Processor)
    (first : String × GrayImage) (rest : List (String × GrayImage))
    (trace : Bool) (g0 : Option TraceState) (missing : String)
    (hmiss : proc.inputs.find?
      (fun s => !(first :: rest).any (fun i => i.1 == s)) = some missing) :
    process_impl cal proc (first :: rest) trace g0 =
      ((if trace then
          some (installTrace (first :: rest) proc.outputs
            first.2.width first.2.height)
        else g0),
       .error ("Required source " ++ missing
         ++ " is not calculated and is not provided as an input")) := by
  simp only [process_impl, hmiss]

theorem process_impl_true_ok_state (cal : Callee) (proc : Processor)
    (supplied : List (String × GrayImage)) (g0 : Option TraceState)
    {gfin : Option TraceState} {res : List (String × GrayImage) × Option Trace}
    (h : process_impl cal proc supplied true g0 = (gfin, .ok res)) :
    gfin = none := by
  match supplied with
  | [] =>
    simp only [process_impl] at h
    exact absurd (congrArg Prod.snd h) (by simp)
  | first :: rest =>
    simp only [process_impl] at h
    match hval : proc.inputs.find?
        (fun s => !(first :: rest).any (fun i => i.1 == s)) with
    | some missing =>
      rw [hval] at h
      exact absurd (congrArg Prod.snd h) (by simp)
    | none =>
      rw [hval] at h
      dsimp only at h
      match harity : arityArgs proc.inputs.length first.2
          (proc.outputs.map
            (fun nm => (nm, GrayImage.new first.2.width first.2.height))) with
      | .error e =>
        rw [harity] at h
        exact absurd (congrArg Prod.snd h) (by simp)
      | .ok args =>
        rw [harity] at h
        dsimp only at h
        simp only [if_true] at h
        match hc : cal args (some (installTrace (first :: rest) proc.outputs
            first.2.width first.2.height)) with
        | (g2, .error e) =>
          rw [hc] at h
          dsimp only at h
          exact absurd (congrArg Prod.snd h) (by simp)
        | (g2, .ok outbufs) =>
          rw [hc] at h
          dsimp only at h
          exact (congrArg Prod.fst h).symm

/-- C6 (amended): process_with_tracing installs the global trace at
entry and clears it before returning on every successful exit path; on
failing (panicking) paths the global trace and the routing map remain
installed (see the counterexample). -/
theorem process_with_tracing_clears (cal : Callee) (proc : Processor)
    (supplied : List (String × GrayImage)) (g0 : Option TraceState)
    {r : List (String × GrayImage) × Trace}
    (h : (Processor.process_with_tracing cal proc supplied g0).2 = .ok r) :
    (Processor.process_with_tracing cal proc supplied g0).1 = none := by
  simp only [Processor.process_with_tracing] at h ⊢
  match hr2 : (process_impl cal proc supplied true g0).2 with
  | .error e =>
    rw [hr2] at h
    exact absurd h (by simp)
  | .ok (m, none) =>
    rw [hr2] at h
    exact absurd h (by simp)
  | .ok (m, some t) =>
    have heq : process_impl cal proc supplied true g0
        = ((process_impl cal proc supplied true g0).1, .ok (m, some t)) := by
      rw [← hr2]
    exact process_impl_true_ok_state cal proc supplied g0 heq

/-! ## Claims -/

/-- C2: (code bug) The spec requires process to marshal three arrays
(buffers, widths, heights) in inputs ++ outputs order plus a lex-ordered
param array and invoke the generated function through the single fixed
signature void F(u8**, u64*, u64*, i32*) for any arity.  The code
instead dispatches on the declared (inputs, outputs) arity, passes flat
per-buffer triples through transmuted per-arity function types, passes
no parameter array at all, and panics outside 1..2 x 1..2: this
three-input pipeline is a validly constructed graph whose process call
dies with the Unsupported signature panic; moreover even for supported
arities the transmuted flat parameter list differs from the four-array
signature construct_func declares. -/
theorem process_unsupported_signature :
    Graph.new "triple" [tripleFunc] tripleSchedule = .ok tripleGraph ∧
    (Processor.process (generatedCallee tripleGraph (fun _ => 0))
      (Processor.new tripleGraph)
      [("a", exImg), ("b", exImg), ("c", exImg)] none).2
        = .error "Unsupported signature" ∧
    transmuted_param_types 1 1 ≠ construct_func_param_types ∧
    transmuted_param_types 3 1 ≠ construct_func_param_types := by
  decide

/-- C3: (code bug) gStage reads stage f, yet is listed before fStage;
the user-supplied order is not a valid dependency order.  The spec
requires Graph::new to fail fast with a dependency-order error, but the
construction succeeds, outputs being exactly the Func names in the
user-supplied (invalid) order. -/
theorem graphNew_accepts_invalid_order :
    gStage.sources = ["f"] ∧ fStage.name = "f" ∧
    Graph.new "pipeline" [gStage, fStage] ooSchedule =
      .ok ⟨"pipeline", [gStage, fStage], ["in"], ["g", "f"], [], ooSchedule⟩ := by
  decide

/-- C4: for every constructed graph and every input set, process and
process_with_tracing return the same map from output names to output
images: enabling tracing changes no output pixel. -/
theorem tracing_preserves_outputs {n : String} {fs : List Func}
    {sch : Schedule} {g : Graph} (penv : String → Int)
    (h : Graph.new n fs sch = .ok g) (supplied : List (String × GrayImage)) :
    (Processor.process (generatedCallee g penv) (Processor.new g) supplied none).2 =
    ((Processor.process_with_tracing (generatedCallee g penv) (Processor.new g)
        supplied none).2).map (·.1) :=
  process_tracing_eq penv h supplied

theorem tracing_preserves_outputs_witness :
    Graph.new "example" [exFunc] exSchedule = .ok exGraph ∧
    ((Processor.process (generatedCallee exGraph (fun _ => 0))
        (Processor.new exGraph) [("in", exImg)] none).2 =
      ((Processor.process_with_tracing (generatedCallee exGraph (fun _ => 0))
          (Processor.new exGraph) [("in", exImg)] none).2).map (·.1)) :=
  ⟨by decide, tracing_preserves_outputs (fun _ => 0)
    (show Graph.new "example" [exFunc] exSchedule = .ok exGraph by decide)
    [("in", exImg)]⟩

theorem process_ignores_second_input_witness :
    Graph.new "two" [twoFunc] twoSchedule = .ok twoGraph ∧
    twoGraph.inputs.length = 2 ∧
    ((Processor.process (generatedCallee twoGraph (fun _ => 0))
        (Processor.new twoGraph) [("a", exImg), ("b", exImg)] none).2 =
      (Processor.process (generatedCallee twoGraph (fun _ => 0))
        (Processor.new twoGraph) [("a", exImg), ("b", exImg2)] none).2 ∧
    ((Processor.process_with_tracing (generatedCallee twoGraph (fun _ => 0))
        (Processor.new twoGraph) [("a", exImg), ("b", exImg)] none).2).map (·.1) =
      ((Processor.process_with_tracing (generatedCallee twoGraph (fun _ => 0))
        (Processor.new twoGraph) [("a", exImg), ("b", exImg2)] none).2).map (·.1)) :=
  ⟨by decide, by decide,
    process_ignores_second_input (fun _ => 0)
      (show Graph.new "two" [twoFunc] twoSchedule = .ok twoGraph by decide)
      (by decide) ("a", exImg) "b" exImg exImg2 []⟩

/-- C5 counterexample: with the declared input missing and no input
supplied at all, the call fails with an index-out-of-bounds panic from
the dimension derivation, not with the missing-input error the claim
promises as the first step. -/
theorem process_empty_inputs_index_panic :
    (Processor.process (generatedCallee exGraph (fun _ => 0))
      (Processor.new exGraph) [] none).2
        = .error "index out of bounds: the len is 0 but the index is 0" ∧
    "index out of bounds: the len is 0 but the index is 0"
      ≠ "Required source in is not calculated and is not provided as an input" := by
  decide

theorem process_impl_missing_input_witness :
    (Processor.new exGraph).inputs.find?
        (fun s => !([(("other" : String), exImg)]).any (fun i => i.1 == s))
      = some "in" ∧
    process_impl (generatedCallee exGraph (fun _ => 0)) (Processor.new exGraph)
        [("other", exImg)] true none =
      ((if true then
          some (installTrace [("other", exImg)] (Processor.new exGraph).outputs
            exImg.width exImg.height)
        else none),
       .error ("Required source " ++ "in"
         ++ " is not calculated and is not provided as an input")) :=
  ⟨by decide,
    process_impl_missing_input (generatedCallee exGraph (fun _ => 0))
      (Processor.new exGraph) ("other", exImg) [] true none "in" (by decide)⟩

/-- C6 counterexample: a traced call that panics on a missing input
leaves the global trace and id map installed: the final global state is
still occupied after the failing call returns. -/
theorem process_with_tracing_leaks_on_panic :
    (Processor.process_with_tracing (generatedCallee exGraph (fun _ => 0))
      (Processor.new exGraph) [("other", exImg)] none).2
        = .error "Required source in is not calculated and is not provided as an input" ∧
    (Processor.process_with_tracing (generatedCallee exGraph (fun _ => 0))
      (Processor.new exGraph) [("other", exImg)] none).1 ≠ none := by
  decide

theorem process_with_tracing_clears_witness :
    (Processor.process_with_tracing (generatedCallee exGraph (fun _ => 0))
      (Processor.new exGraph) [("in", exImg)] none).2 = .ok (exOutMap, exTrace) ∧
    (Processor.process_with_tracing (generatedCallee exGraph (fun _ => 0))
      (Processor.new exGraph) [("in", exImg)] none).1 = none :=
  ⟨by decide,
    process_with_tracing_clears (generatedCallee exGraph (fun _ => 0))
      (Processor.new exGraph) [("in", exImg)] none
      (show (Processor.process_with_tracing (generatedCallee exGraph (fun _ => 0))
          (Processor.new exGraph) [("in", exImg)] none).2 = .ok (exOutMap, exTrace)
        by decide)⟩

theorem graphNew_invariants_witness :
    Graph.new "example" [exFunc] exSchedule = .ok exGraph ∧
    (exGraph.inputs.Sorted (· ≤ ·) ∧ exGraph.inputs.Nodup ∧
    exGraph.params.Sorted (· ≤ ·) ∧ exGraph.params.Nodup ∧
    (∀ s, s ∈ exGraph.inputs ↔
      ((∃ f ∈ [exFunc], s ∈ f.sources) ∧ ¬ (∃ f ∈ [exFunc], f.name = s)))) :=
  ⟨by decide, graphNew_invariants
    (show Graph.new "example" [exFunc] exSchedule = .ok exGraph by decide)⟩

/-- C8 counterexample: the Definition printer is not injective: the
structurally distinct Definitions Const 3 and Param "3" print to the
same string. -/
theorem definition_pretty_print_collision :
    Definition.pretty_print (.Const 3) = Definition.pretty_print (.Param "3") ∧
    (Definition.Const 3) ≠ (.Param "3") := by
  decide

theorem pretty_print_inj_witness :
    VarExpr.pretty_print (.Add (.Var .X) (.Const 1))
      = VarExpr.pretty_print (.Add (.Var .X) (.Const 1)) ∧
    (VarExpr.Add (.Var .X) (.Const 1)) = .Add (.Var .X) (.Const 1) :=
  ⟨rfl, pretty_print_inj rfl⟩

theorem lower_access_spec_witness :
    tsW.ids.lookup "src" = some 0 ∧
    envW.widths "src" * envW.heights "src" ≤ 2 ^ 31 ∧
    lower_access envW memW ⟨"src", .Var .X, .Var .Y⟩ 1 1 (some tsW) =
      (if (0 ≤ lower_var_expr (.Var .X) 1 1
            ∧ lower_var_expr (.Var .X) 1 1 < envW.widths "src")
        ∧ (0 ≤ lower_var_expr (.Var .Y) 1 1
            ∧ lower_var_expr (.Var .Y) 1 1 < envW.heights "src")
      then .ok (((memW "src").getD
          (lower_var_expr (.Var .Y) 1 1 * envW.widths "src"
            + lower_var_expr (.Var .X) 1 1).toNat 0 : Int),
        some (pushRead tsW "src" (lower_var_expr (.Var .X) 1 1)
          (lower_var_expr (.Var .Y) 1 1)))
      else .ok (0, some tsW)) :=
  ⟨by decide, by decide,
    lower_access_spec envW memW ⟨"src", .Var .X, .Var .Y⟩ 1 1 tsW 0
      (by decide) (by decide)⟩

theorem lower_cond_spec_witness :
    (∀ p ∈ defReads envW
        (.Cond .GT (.Access ⟨"src", .Var .X, .Var .Y⟩) (.Const 100)
          (.Access ⟨"src", .Const 0, .Const 0⟩) (.Const 7)) 0 0,
      (tsW.ids.lookup p.1).isSome) ∧
    lower_definition envW memW
        (.Cond .GT (.Access ⟨"src", .Var .X, .Var .Y⟩) (.Const 100)
          (.Access ⟨"src", .Const 0, .Const 0⟩) (.Const 7)) 0 0 (some tsW) =
      .ok ((if Comparison.holds .GT
            (defValue envW memW (.Access ⟨"src", .Var .X, .Var .Y⟩) 0 0)
            (defValue envW memW (.Const 100) 0 0)
          then defValue envW memW (.Access ⟨"src", .Const 0, .Const 0⟩) 0 0
          else defValue envW memW (.Const 7) 0 0),
        some (pushReads tsW
          (defReads envW (.Access ⟨"src", .Var .X, .Var .Y⟩) 0 0
            ++ defReads envW (.Const 100) 0 0
            ++ defReads envW (.Access ⟨"src", .Const 0, .Const 0⟩) 0 0
            ++ defReads envW (.Const 7) 0 0))) :=
  ⟨by decide,
    lower_cond_spec envW memW .GT (.Access ⟨"src", .Var .X, .Var .Y⟩)
      (.Const 100) (.Access ⟨"src", .Const 0, .Const 0⟩) (.Const 7) 0 0 tsW
      (by decide)⟩

end Prism
